import Mathlib

/-!
# Ingress node firewall API types (package `v1alpha1`)

A shallow embedding of `api/v1alpha1/ingressnodefirewall_types.go` and of the
generated copy methods of `api/v1alpha1/zz_generated.deepcopy.go`.

* Go structs become Lean structures with the same field names.
* Go slices are slice headers (`Slice`: backing array, offset, length) into an
  explicit heap of backing arrays; a nil slice is `none`.
* A nilable pointer receiver is an `Option`.
* `DeepCopyInto` takes the heap and the structs behind `in` and `out`
  (`Operands`: one struct when the two pointers are equal, two otherwise) and
  returns the heap and the structs as the call leaves them.  `DeepCopy` passes
  a fresh `new(T)`, which is never the receiver.
* Strings are immutable and are copied by value.

The first part of the file holds the definitions, the second the theorems.
-/

namespace V1alpha1

/-! ## Machine integers -/

/-- Go `int8`: an integer between -128 and 127. -/
abbrev GoInt8 : Type := { n : Int // -128 ≤ n ∧ n ≤ 127 }

/-- Go `int32`: an integer between -2^31 and 2^31 - 1. -/
abbrev GoInt32 : Type := { n : Int // -2147483648 ≤ n ∧ n ≤ 2147483647 }

/-- The zero value of `int8`. -/
def GoInt8.zero : GoInt8 := ⟨0, by decide⟩

/-- The zero value of `int32`. -/
def GoInt32.zero : GoInt32 := ⟨0, by decide⟩

/-! ## Leaf types of `ingressnodefirewall_types.go` -/

/-- Go struct `IngressNodeFirewallFromCIDR`: one CIDR string. -/
structure IngressNodeFirewallFromCIDR where
  FromCIDR : String
deriving DecidableEq, Repr

/-- Go struct `IngressNodeFirewallICMPRule`: two `int8` fields. -/
structure IngressNodeFirewallICMPRule where
  ICMPType : GoInt8
  ICMPCode : GoInt8
deriving DecidableEq, Repr

/-- The kubebuilder markers on the two fields of `IngressNodeFirewallICMPRule`:
`Minimum:=0`, `Maximum:=43` on `ICMPType` and `Minimum:=0`, `Maximum:=16` on
`ICMPCode`. -/
def IngressNodeFirewallICMPRule.Validated (r : IngressNodeFirewallICMPRule) : Prop :=
  (0 ≤ r.ICMPType.val ∧ r.ICMPType.val ≤ 43) ∧
  (0 ≤ r.ICMPCode.val ∧ r.ICMPCode.val ≤ 16)

instance (r : IngressNodeFirewallICMPRule) : Decidable r.Validated :=
  inferInstanceAs (Decidable (_ ∧ _))

/-- Go type `IngressNodeFirewallRuleProtocolType`: a string. -/
abbrev IngressNodeFirewallRuleProtocolType : Type := String

def ProtocolTypeICMP : IngressNodeFirewallRuleProtocolType := "ICMP"
def ProtocolTypeICMPv6 : IngressNodeFirewallRuleProtocolType := "ICMPv6"
def ProtocolTypeTCP : IngressNodeFirewallRuleProtocolType := "TCP"
def ProtocolTypeUDP : IngressNodeFirewallRuleProtocolType := "UDP"
def ProtocolTypeSCTP : IngressNodeFirewallRuleProtocolType := "SCTP"

/-- Go type `IngressNodeFirewallActionType`: a string. -/
abbrev IngressNodeFirewallActionType : Type := String

def IngressNodeFirewallAllow : IngressNodeFirewallActionType := "Allow"
def DIngressNodeFirewallDeny : IngressNodeFirewallActionType := "Deny"

/-- The marker `+kubebuilder:validation:Pattern` on `IngressNodeFirewallActionType`. -/
def IngressNodeFirewallActionTypePattern : String := "^Allow|Deny$"

/-! ## Validation patterns

A `Pattern` marker is a regular expression that the API server searches for in
the value (it is not implicitly anchored).  The fragment below covers literal
characters, the anchors `^` and `$`, and top-level alternation `|`, which binds
weaker than concatenation. -/

/-- One item of a concatenation. -/
inductive RegexAtom where
  | bol
  | eol
  | lit (c : Char)
deriving DecidableEq, Repr

/-- Characters with a meaning this fragment does not cover. -/
def regexUnsupported : List Char :=
  ['(', ')', '[', ']', '{', '}', '*', '+', '?', '.', '\\']

/-- Parse one alternative (no `|` inside) into its atoms. -/
def parseRegexAlt : List Char → Option (List RegexAtom)
  | [] => some []
  | c :: cs =>
    match parseRegexAlt cs with
    | none => none
    | some rest =>
      if c = '^' then some (RegexAtom.bol :: rest)
      else if c = '$' then some (RegexAtom.eol :: rest)
      else if c ∈ regexUnsupported then none
      else some (RegexAtom.lit c :: rest)

/-- Split a text at every occurrence of `sep`. -/
def splitChars (sep : Char) : List Char → List (List Char)
  | [] => [[]]
  | c :: cs =>
    match splitChars sep cs with
    | [] => [[c]]
    | a :: as => if c = sep then [] :: a :: as else (c :: a) :: as

/-- Split a pattern at every top-level `|`. -/
def splitRegexAlts (cs : List Char) : List (List Char) :=
  splitChars '|' cs

/-- Parse every alternative of a list of raw alternatives. -/
def parseRegexAlts : List (List Char) → Option (List (List RegexAtom))
  | [] => some []
  | a :: as =>
    match parseRegexAlt a, parseRegexAlts as with
    | some x, some xs => some (x :: xs)
    | _, _ => none

/-- Parse a pattern into its alternatives. -/
def parseRegex (p : String) : Option (List (List RegexAtom)) :=
  parseRegexAlts (splitRegexAlts p.toList)

/-- Does the concatenation match a prefix of `rest`?  `atStart` says whether
the current position is the start of the whole text. -/
def matchAtoms : List RegexAtom → Bool → List Char → Bool
  | [], _, _ => true
  | RegexAtom.bol :: as, atStart, rest => atStart && matchAtoms as atStart rest
  | RegexAtom.eol :: as, atStart, rest => rest.isEmpty && matchAtoms as atStart rest
  | RegexAtom.lit _ :: _, _, [] => false
  | RegexAtom.lit c :: as, _, d :: ds => decide (c = d) && matchAtoms as false ds

/-- Unanchored search: does some alternative match at some position? -/
def searchRegex (alts : List (List RegexAtom)) : Bool → List Char → Bool
  | atStart, [] => alts.any (fun a => matchAtoms a atStart [])
  | atStart, c :: cs =>
    alts.any (fun a => matchAtoms a atStart (c :: cs)) || searchRegex alts false cs

/-- Does the value `s` pass the validation pattern `pat`? -/
def patternAccepts (pat s : String) : Bool :=
  match parseRegex pat with
  | none => false
  | some alts => searchRegex alts true s.toList

/-! ## Slices and backing arrays -/

/-- A Go slice header: the backing array it points into, the offset of its
first element in that array, and its length. -/
structure Slice where
  arr : Nat
  off : Nat
  len : Nat
deriving DecidableEq, Repr

/-- The backing arrays of one element type, addressed by position. -/
abbrev Mem (α : Type) : Type := List (List α)

/-- Go `make([]T, n)`: a new backing array of `n` zero values at the next free
address, and the slice over it. -/
def Mem.make {α : Type} (m : Mem α) (zero : α) (n : Nat) : Mem α × Slice :=
  (m ++ [List.replicate n zero], ⟨m.length, 0, n⟩)

/-- The elements of the slice `s`, in order. -/
def Mem.read {α : Type} (m : Mem α) (s : Slice) : List α :=
  ((m.getD s.arr []).drop s.off).take s.len

/-- Go `s[i]`, for `i < len(s)`. -/
def Mem.index {α : Type} (m : Mem α) (zero : α) (s : Slice) (i : Nat) : α :=
  (m.getD s.arr []).getD (s.off + i) zero

/-- The element store `array[idx] = v` on backing array `arr`. -/
def Mem.poke {α : Type} (m : Mem α) (arr idx : Nat) (v : α) : Mem α :=
  m.set arr ((m.getD arr []).set idx v)

/-- Go `s[i] = v`, for `i < len(s)`. -/
def Mem.store {α : Type} (m : Mem α) (s : Slice) (i : Nat) (v : α) : Mem α :=
  m.poke s.arr (s.off + i) v

/-- Go `copy(dst, src)`: the first `min(len(dst), len(src))` elements of `src`
overwrite the start of `dst`; a nil slice has length 0, so nothing is copied. -/
def Mem.copy {α : Type} (m : Mem α) : Option Slice → Option Slice → Mem α
  | some dst, some src =>
    let vals := (m.read src).take dst.len
    let a := m.getD dst.arr []
    m.set dst.arr (a.take dst.off ++ vals ++ a.drop (dst.off + vals.length))
  | _, _ => m

/-! ## The structs behind `in` and `out`

A call `in.DeepCopyInto(out)` reads the struct `in` points at and writes the
struct `out` points at.  These are one struct when the two pointers are equal
and two structs otherwise; every read of `*in` sees the writes made through
`out` so far in the first case and none of them in the second. -/

/-- The structs behind the pointers `in` and `out` of one call. -/
inductive Operands (T : Type) where
  | same (v : T)
  | two (inv outv : T)
deriving DecidableEq, Repr

/-- Go `*in`. -/
def Operands.readIn {T : Type} : Operands T → T
  | .same v => v
  | .two i _ => i

/-- Go `*out`. -/
def Operands.readOut {T : Type} : Operands T → T
  | .same v => v
  | .two _ o => o

/-- Go `*out = x`. -/
def Operands.writeOut {T : Type} (x : T) : Operands T → Operands T
  | .same _ => .same x
  | .two i _ => .two i x

/-- The structs behind `&in.f` and `&out.f` for a field `f`. -/
def Operands.field {T U : Type} (f : T → U) : Operands T → Operands U
  | .same v => .same (f v)
  | .two i o => .two (f i) (f o)

/-- The structs behind `&(*in)[i]` and `&(*out)[i]`: one struct when the two
slices start at the same place of the same backing array. -/
def Operands.elems {T : Type} (m : Mem T) (zero : T) (src dst : Slice) (i : Nat) :
    Operands T :=
  if src.arr = dst.arr ∧ src.off + i = dst.off + i then Operands.same (m.index zero src i)
  else Operands.two (m.index zero src i) (m.index zero dst i)

/-- Go `for i := 0; i < n; i++ { body }` as a state transformer. -/
def forRange {σ : Type} (body : Nat → σ → σ) : Nat → σ → σ
  | 0, s => s
  | n + 1, s => body n (forRange body n s)

/-! ## Structs that hold slices -/

/-- Go struct `IngressNodeFirewallProtoRule`. -/
structure IngressNodeFirewallProtoRule where
  Ports : Option Slice
deriving DecidableEq, Repr

/-- Go struct `IngressNodeFirewallProtocolRule`. -/
structure IngressNodeFirewallProtocolRule where
  ProtocolRule : IngressNodeFirewallProtoRule
  ICMPRule : IngressNodeFirewallICMPRule
  Protocol : IngressNodeFirewallRuleProtocolType
  Action : IngressNodeFirewallActionType
deriving DecidableEq, Repr

/-- Go struct `IngressNodeFirewallRules`. -/
structure IngressNodeFirewallRules where
  FromCIDRs : Option Slice
  FirewallProtocolRules : Option Slice
deriving DecidableEq, Repr

/-- Go struct `IngressNodeFirewallSpec`. -/
structure IngressNodeFirewallSpec where
  Ingress : Option Slice
deriving DecidableEq, Repr

/-- The zero value of `IngressNodeFirewallFromCIDR`. -/
def IngressNodeFirewallFromCIDR.zero : IngressNodeFirewallFromCIDR := ⟨""⟩

/-- The zero value of `IngressNodeFirewallICMPRule`. -/
def IngressNodeFirewallICMPRule.zero : IngressNodeFirewallICMPRule :=
  ⟨GoInt8.zero, GoInt8.zero⟩

/-- The zero value of `IngressNodeFirewallProtoRule`. -/
def IngressNodeFirewallProtoRule.zero : IngressNodeFirewallProtoRule := ⟨none⟩

/-- The zero value of `IngressNodeFirewallProtocolRule`. -/
def IngressNodeFirewallProtocolRule.zero : IngressNodeFirewallProtocolRule :=
  ⟨IngressNodeFirewallProtoRule.zero, IngressNodeFirewallICMPRule.zero, "", ""⟩

/-- The zero value of `IngressNodeFirewallRules`. -/
def IngressNodeFirewallRules.zero : IngressNodeFirewallRules := ⟨none, none⟩

/-- The zero value of `IngressNodeFirewallSpec`. -/
def IngressNodeFirewallSpec.zero : IngressNodeFirewallSpec := ⟨none⟩

/-- The heap: the backing arrays of the four slice types of the package. -/
structure Heap where
  ports : Mem GoInt32
  cidrs : Mem IngressNodeFirewallFromCIDR
  prules : Mem IngressNodeFirewallProtocolRule
  rules : Mem IngressNodeFirewallRules
deriving DecidableEq, Repr

/-! ## Copies of `zz_generated.deepcopy.go`

`DeepCopyInto` takes the heap and the structs behind `in` and `out`, and
returns the heap and the two structs as the call leaves them.  `DeepCopy`
passes a fresh `new(T)` as the destination, which is never the receiver. -/

/-- Go `func (in *IngressNodeFirewallFromCIDR) DeepCopyInto(out)`: `*out = *in`. -/
def IngressNodeFirewallFromCIDR.DeepCopyInto
    (v : Operands IngressNodeFirewallFromCIDR) : Operands IngressNodeFirewallFromCIDR :=
  v.writeOut v.readIn

/-- Go `func (in *IngressNodeFirewallFromCIDR) DeepCopy()`. -/
def IngressNodeFirewallFromCIDR.DeepCopy :
    Option IngressNodeFirewallFromCIDR → Option IngressNodeFirewallFromCIDR
  | none => none
  | some inp =>
    let out := IngressNodeFirewallFromCIDR.zero
    some (IngressNodeFirewallFromCIDR.DeepCopyInto (Operands.two inp out)).readOut

/-- Go `func (in *IngressNodeFirewallICMPRule) DeepCopyInto(out)`: `*out = *in`. -/
def IngressNodeFirewallICMPRule.DeepCopyInto
    (v : Operands IngressNodeFirewallICMPRule) : Operands IngressNodeFirewallICMPRule :=
  v.writeOut v.readIn

/-- Go `func (in *IngressNodeFirewallICMPRule) DeepCopy()`. -/
def IngressNodeFirewallICMPRule.DeepCopy :
    Option IngressNodeFirewallICMPRule → Option IngressNodeFirewallICMPRule
  | none => none
  | some inp =>
    let out := IngressNodeFirewallICMPRule.zero
    some (IngressNodeFirewallICMPRule.DeepCopyInto (Operands.two inp out)).readOut

/-- Go `func (in *IngressNodeFirewallProtoRule) DeepCopyInto(out)`:
`*out = *in`, then, if `in.Ports != nil`, with `in, out := &in.Ports, &out.Ports`:
`*out = make([]int32, len(*in))` and `copy(*out, *in)`. -/
def IngressNodeFirewallProtoRule.DeepCopyInto (h : Heap)
    (v : Operands IngressNodeFirewallProtoRule) :
    Heap × Operands IngressNodeFirewallProtoRule :=
  let v := v.writeOut v.readIn
  match v.readIn.Ports with
  | none => (h, v)
  | some src =>
    let (m, dst) := h.ports.make GoInt32.zero src.len
    let v := v.writeOut { v.readOut with Ports := some dst }
    ({ h with ports := m.copy v.readOut.Ports v.readIn.Ports }, v)

/-- Go `func (in *IngressNodeFirewallProtoRule) DeepCopy()`. -/
def IngressNodeFirewallProtoRule.DeepCopy (h : Heap) :
    Option IngressNodeFirewallProtoRule → Heap × Option IngressNodeFirewallProtoRule
  | none => (h, none)
  | some inp =>
    let out := IngressNodeFirewallProtoRule.zero
    let r := IngressNodeFirewallProtoRule.DeepCopyInto h (Operands.two inp out)
    (r.1, some r.2.readOut)

/-- Go `func (in *IngressNodeFirewallProtocolRule) DeepCopyInto(out)`:
`*out = *in`, `in.ProtocolRule.DeepCopyInto(&out.ProtocolRule)`,
`out.ICMPRule = in.ICMPRule`. -/
def IngressNodeFirewallProtocolRule.DeepCopyInto (h : Heap)
    (v : Operands IngressNodeFirewallProtocolRule) :
    Heap × Operands IngressNodeFirewallProtocolRule :=
  let v := v.writeOut v.readIn
  let r := IngressNodeFirewallProtoRule.DeepCopyInto h (v.field (fun x => x.ProtocolRule))
  let v := v.writeOut { v.readOut with ProtocolRule := r.2.readOut }
  let v := v.writeOut { v.readOut with ICMPRule := v.readIn.ICMPRule }
  (r.1, v)

/-- Go `func (in *IngressNodeFirewallProtocolRule) DeepCopy()`. -/
def IngressNodeFirewallProtocolRule.DeepCopy (h : Heap) :
    Option IngressNodeFirewallProtocolRule → Heap × Option IngressNodeFirewallProtocolRule
  | none => (h, none)
  | some inp =>
    let out := IngressNodeFirewallProtocolRule.zero
    let r := IngressNodeFirewallProtocolRule.DeepCopyInto h (Operands.two inp out)
    (r.1, some r.2.readOut)

/-- One turn of the loop of `IngressNodeFirewallRules.DeepCopyInto`:
`(*in)[i].DeepCopyInto(&(*out)[i])`, for the slices `src = *in` and `dst = *out`. -/
def IngressNodeFirewallRules.copyElem (src dst : Slice) (i : Nat) (h : Heap) : Heap :=
  let v := Operands.elems h.prules IngressNodeFirewallProtocolRule.zero src dst i
  let r := IngressNodeFirewallProtocolRule.DeepCopyInto h v
  { r.1 with prules := r.1.prules.store dst i r.2.readOut }

/-- Go `func (in *IngressNodeFirewallRules) DeepCopyInto(out)`: `*out = *in`; if
`in.FromCIDRs != nil`, a `make` and a `copy`; if `in.FirewallProtocolRules != nil`, with
`in, out := &in.FirewallProtocolRules, &out.FirewallProtocolRules`: a `make` and
`for i := range *in { (*in)[i].DeepCopyInto(&(*out)[i]) }`. -/
def IngressNodeFirewallRules.DeepCopyInto (h : Heap)
    (v : Operands IngressNodeFirewallRules) : Heap × Operands IngressNodeFirewallRules :=
  let v := v.writeOut v.readIn
  let (h, v) :=
    match v.readIn.FromCIDRs with
    | none => (h, v)
    | some src =>
      let (m, dst) := h.cidrs.make IngressNodeFirewallFromCIDR.zero src.len
      let v := v.writeOut { v.readOut with FromCIDRs := some dst }
      ({ h with cidrs := m.copy v.readOut.FromCIDRs v.readIn.FromCIDRs }, v)
  match v.readIn.FirewallProtocolRules with
  | none => (h, v)
  | some src =>
    let (m, dst) := h.prules.make IngressNodeFirewallProtocolRule.zero src.len
    let v := v.writeOut { v.readOut with FirewallProtocolRules := some dst }
    match v.readIn.FirewallProtocolRules with
    | none => ({ h with prules := m }, v)
    | some cur =>
      (forRange (IngressNodeFirewallRules.copyElem cur dst) cur.len { h with prules := m }, v)

/-- Go `func (in *IngressNodeFirewallRules) DeepCopy()`. -/
def IngressNodeFirewallRules.DeepCopy (h : Heap) :
    Option IngressNodeFirewallRules → Heap × Option IngressNodeFirewallRules
  | none => (h, none)
  | some inp =>
    let out := IngressNodeFirewallRules.zero
    let r := IngressNodeFirewallRules.DeepCopyInto h (Operands.two inp out)
    (r.1, some r.2.readOut)

/-- One turn of the loop of `IngressNodeFirewallSpec.DeepCopyInto`:
`(*in)[i].DeepCopyInto(&(*out)[i])`, for the slices `src = *in` and `dst = *out`. -/
def IngressNodeFirewallSpec.copyElem (src dst : Slice) (i : Nat) (h : Heap) : Heap :=
  let v := Operands.elems h.rules IngressNodeFirewallRules.zero src dst i
  let r := IngressNodeFirewallRules.DeepCopyInto h v
  { r.1 with rules := r.1.rules.store dst i r.2.readOut }

/-- Go `func (in *IngressNodeFirewallSpec) DeepCopyInto(out)`: `*out = *in`; if
`in.Ingress != nil`, with `in, out := &in.Ingress, &out.Ingress`: a `make` and
`for i := range *in { (*in)[i].DeepCopyInto(&(*out)[i]) }`. -/
def IngressNodeFirewallSpec.DeepCopyInto (h : Heap)
    (v : Operands IngressNodeFirewallSpec) : Heap × Operands IngressNodeFirewallSpec :=
  let v := v.writeOut v.readIn
  match v.readIn.Ingress with
  | none => (h, v)
  | some src =>
    let (m, dst) := h.rules.make IngressNodeFirewallRules.zero src.len
    let v := v.writeOut { v.readOut with Ingress := some dst }
    match v.readIn.Ingress with
    | none => ({ h with rules := m }, v)
    | some cur =>
      (forRange (IngressNodeFirewallSpec.copyElem cur dst) cur.len { h with rules := m }, v)

/-- Go `func (in *IngressNodeFirewallSpec) DeepCopy()`. -/
def IngressNodeFirewallSpec.DeepCopy (h : Heap) :
    Option IngressNodeFirewallSpec → Heap × Option IngressNodeFirewallSpec
  | none => (h, none)
  | some inp =>
    let out := IngressNodeFirewallSpec.zero
    let r := IngressNodeFirewallSpec.DeepCopyInto h (Operands.two inp out)
    (r.1, some r.2.readOut)

/-! ## The value a struct denotes

Reading every slice through the heap turns a struct into a tree of plain
values; a nil slice stays `none`. -/

/-- The value of an `IngressNodeFirewallProtoRule`. -/
structure ProtoRuleValue where
  Ports : Option (List GoInt32)
deriving DecidableEq, Repr

/-- The value of an `IngressNodeFirewallProtocolRule`. -/
structure ProtocolRuleValue where
  ProtocolRule : ProtoRuleValue
  ICMPRule : IngressNodeFirewallICMPRule
  Protocol : IngressNodeFirewallRuleProtocolType
  Action : IngressNodeFirewallActionType
deriving DecidableEq, Repr

/-- The value of an `IngressNodeFirewallRules`. -/
structure RulesValue where
  FromCIDRs : Option (List IngressNodeFirewallFromCIDR)
  FirewallProtocolRules : Option (List ProtocolRuleValue)
deriving DecidableEq, Repr

/-- The value of an `IngressNodeFirewallSpec`. -/
structure SpecValue where
  Ingress : Option (List RulesValue)
deriving DecidableEq, Repr

def IngressNodeFirewallProtoRule.value (h : Heap)
    (p : IngressNodeFirewallProtoRule) : ProtoRuleValue :=
  ⟨p.Ports.map h.ports.read⟩

def IngressNodeFirewallProtocolRule.value (h : Heap)
    (p : IngressNodeFirewallProtocolRule) : ProtocolRuleValue :=
  ⟨p.ProtocolRule.value h, p.ICMPRule, p.Protocol, p.Action⟩

def IngressNodeFirewallRules.value (h : Heap) (r : IngressNodeFirewallRules) : RulesValue :=
  ⟨r.FromCIDRs.map h.cidrs.read,
   r.FirewallProtocolRules.map (fun s => (h.prules.read s).map (fun p => p.value h))⟩

def IngressNodeFirewallSpec.value (h : Heap) (s : IngressNodeFirewallSpec) : SpecValue :=
  ⟨s.Ingress.map (fun sl => (h.rules.read sl).map (fun r => r.value h))⟩

/-! ## Well-formed structs

Every slice header held by a Go value points at an existing backing array and
stays inside it.  `lo` adds a lower bound on the addresses used, which tells
storage allocated after some point from storage that existed before. -/

/-- Sizes of, or addresses into, the four parts of the heap. -/
structure Bounds where
  ports : Nat
  cidrs : Nat
  prules : Nat
  rules : Nat
deriving DecidableEq, Repr

/-- The number of backing arrays of each kind. -/
def Heap.size (h : Heap) : Bounds :=
  ⟨h.ports.length, h.cidrs.length, h.prules.length, h.rules.length⟩

/-- The header `s` is empty, or it points at an array of `m` at address `lo` or
above and lies inside that array. -/
def Slice.ValidIn {α : Type} (m : Mem α) (lo : Nat) (s : Slice) : Prop :=
  s.len = 0 ∨ (lo ≤ s.arr ∧ s.arr < m.length ∧ s.off + s.len ≤ (m.getD s.arr []).length)

instance {α : Type} (m : Mem α) (lo : Nat) (s : Slice) : Decidable (s.ValidIn m lo) :=
  inferInstanceAs (Decidable (_ ∨ _))

def IngressNodeFirewallProtoRule.WF (h : Heap) (lo : Bounds)
    (p : IngressNodeFirewallProtoRule) : Prop :=
  ∀ s ∈ p.Ports, s.ValidIn h.ports lo.ports

instance (h : Heap) (lo : Bounds) (p : IngressNodeFirewallProtoRule) : Decidable (p.WF h lo) :=
  inferInstanceAs (Decidable (∀ s ∈ p.Ports, s.ValidIn h.ports lo.ports))

def IngressNodeFirewallProtocolRule.WF (h : Heap) (lo : Bounds)
    (p : IngressNodeFirewallProtocolRule) : Prop :=
  p.ProtocolRule.WF h lo

instance (h : Heap) (lo : Bounds) (p : IngressNodeFirewallProtocolRule) :
    Decidable (p.WF h lo) :=
  inferInstanceAs (Decidable (p.ProtocolRule.WF h lo))

def IngressNodeFirewallRules.WF (h : Heap) (lo : Bounds)
    (r : IngressNodeFirewallRules) : Prop :=
  (∀ s ∈ r.FromCIDRs, s.ValidIn h.cidrs lo.cidrs) ∧
  (∀ s ∈ r.FirewallProtocolRules,
    s.ValidIn h.prules lo.prules ∧ ∀ p ∈ h.prules.read s, p.WF h lo)

instance (h : Heap) (lo : Bounds) (r : IngressNodeFirewallRules) : Decidable (r.WF h lo) :=
  inferInstanceAs (Decidable (_ ∧ _))

def IngressNodeFirewallSpec.WF (h : Heap) (lo : Bounds)
    (s : IngressNodeFirewallSpec) : Prop :=
  ∀ sl ∈ s.Ingress, sl.ValidIn h.rules lo.rules ∧ ∀ r ∈ h.rules.read sl, r.WF h lo

instance (h : Heap) (lo : Bounds) (s : IngressNodeFirewallSpec) : Decidable (s.WF h lo) :=
  inferInstanceAs (Decidable (∀ sl ∈ s.Ingress, _))

/-- No lower bound on addresses. -/
def Bounds.zero : Bounds := ⟨0, 0, 0, 0⟩

/-! ## Storage locations and element writes -/

/-- One element of one backing array. -/
inductive Loc where
  | port (arr idx : Nat)
  | cidr (arr idx : Nat)
  | prule (arr idx : Nat)
  | rules (arr idx : Nat)
deriving DecidableEq, Repr

/-- The locations of the elements of a slice. -/
def Slice.locs (mk : Nat → Nat → Loc) : Option Slice → List Loc
  | none => []
  | some s => (List.range s.len).map (fun i => mk s.arr (s.off + i))

/-- The elements of `Ports`. -/
def IngressNodeFirewallProtoRule.locs (p : IngressNodeFirewallProtoRule) : List Loc :=
  Slice.locs Loc.port p.Ports

/-- The elements of `ProtocolRule.Ports`. -/
def IngressNodeFirewallProtocolRule.locs (p : IngressNodeFirewallProtocolRule) : List Loc :=
  p.ProtocolRule.locs

/-- The elements of `FromCIDRs`, of `FirewallProtocolRules`, and of the `Ports`
of every protocol rule. -/
def IngressNodeFirewallRules.locs (h : Heap) (r : IngressNodeFirewallRules) : List Loc :=
  Slice.locs Loc.cidr r.FromCIDRs ++ Slice.locs Loc.prule r.FirewallProtocolRules ++
    match r.FirewallProtocolRules with
    | none => []
    | some s => ((h.prules.read s).map (fun p => p.locs)).flatten

/-- The elements of `Ingress` and everything reachable from them. -/
def IngressNodeFirewallSpec.locs (h : Heap) (s : IngressNodeFirewallSpec) : List Loc :=
  Slice.locs Loc.rules s.Ingress ++
    match s.Ingress with
    | none => []
    | some sl => ((h.rules.read sl).map (fun r => r.locs h)).flatten

/-- An assignment to one element of one backing array. -/
inductive Write where
  | port (arr idx : Nat) (v : GoInt32)
  | cidr (arr idx : Nat) (v : IngressNodeFirewallFromCIDR)
  | prule (arr idx : Nat) (v : IngressNodeFirewallProtocolRule)
  | rules (arr idx : Nat) (v : IngressNodeFirewallRules)
deriving DecidableEq, Repr

/-- The location a write assigns to. -/
def Write.loc : Write → Loc
  | .port a i _ => Loc.port a i
  | .cidr a i _ => Loc.cidr a i
  | .prule a i _ => Loc.prule a i
  | .rules a i _ => Loc.rules a i

/-- The heap after the write. -/
def Heap.write (h : Heap) : Write → Heap
  | .port a i v => { h with ports := h.ports.poke a i v }
  | .cidr a i v => { h with cidrs := h.cidrs.poke a i v }
  | .prule a i v => { h with prules := h.prules.poke a i v }
  | .rules a i v => { h with rules := h.rules.poke a i v }

/-! ## Relations between heaps -/

/-- `m'` has every array of `m` at address `lo` or above, unchanged. -/
def Mem.Keeps {α : Type} (lo : Nat) (m m' : Mem α) : Prop :=
  m.length ≤ m'.length ∧ ∀ a, lo ≤ a → a < m.length → m'.getD a [] = m.getD a []

/-- Componentwise order on bounds. -/
def Bounds.le (a b : Bounds) : Prop :=
  a.ports ≤ b.ports ∧ a.cidrs ≤ b.cidrs ∧ a.prules ≤ b.prules ∧ a.rules ≤ b.rules

/-- `h'` has every array of `h` at the addresses `lo` or above, unchanged. -/
def Heap.Keeps (lo : Bounds) (h h' : Heap) : Prop :=
  Mem.Keeps lo.ports h.ports h'.ports ∧ Mem.Keeps lo.cidrs h.cidrs h'.cidrs ∧
  Mem.Keeps lo.prules h.prules h'.prules ∧ Mem.Keeps lo.rules h.rules h'.rules

/-- `h'` is `h` with new arrays appended. -/
def Heap.Ext (h h' : Heap) : Prop :=
  h.ports <+: h'.ports ∧ h.cidrs <+: h'.cidrs ∧ h.prules <+: h'.prules ∧ h.rules <+: h'.rules

/-- The location lies in an array below the bound. -/
def Loc.Below (b : Bounds) : Loc → Prop
  | .port a _ => a < b.ports
  | .cidr a _ => a < b.cidrs
  | .prule a _ => a < b.prules
  | .rules a _ => a < b.rules

/-- The location lies in an array at the bound or above. -/
def Loc.AtLeast (b : Bounds) : Loc → Prop
  | .port a _ => b.ports ≤ a
  | .cidr a _ => b.cidrs ≤ a
  | .prule a _ => b.prules ≤ a
  | .rules a _ => b.rules ≤ a

/-! ## Rule matching engine

The repository holds the rule schema only; the engine below follows section 4.1
of the specification. -/

/-- Modelled from the spec: the output of `Evaluate`, "`Verdict ∈ {Allow, Deny,
NoMatch}`"; the engine is not in the source. -/
inductive Verdict where
  | Allow
  | Deny
  | NoMatch
deriving DecidableEq, Repr

/-- Modelled from the spec: the packet's `protocol`, "enum{ICMP,ICMPv6,TCP,UDP,SCTP}";
the packet descriptor is not in the source. -/
inductive PacketProtocol where
  | ICMP
  | ICMPv6
  | TCP
  | UDP
  | SCTP
deriving DecidableEq, Repr

/-- Modelled from the spec: the name a rule uses for the packet's protocol
("`rule.protocol == packet.protocol`"), through the constants of the source. -/
def PacketProtocol.name : PacketProtocol → IngressNodeFirewallRuleProtocolType
  | .ICMP => ProtocolTypeICMP
  | .ICMPv6 => ProtocolTypeICMPv6
  | .TCP => ProtocolTypeTCP
  | .UDP => ProtocolTypeUDP
  | .SCTP => ProtocolTypeSCTP

/-- Modelled from the spec: the packet descriptor of `Evaluate`, "sourceAddress: IP,
destinationPort: uint16 (optional), protocol, icmpType: uint8 (optional), icmpCode:
uint8 (optional)"; it is not in the source.  The address type is a parameter. -/
structure Packet (IP : Type) where
  sourceAddress : IP
  destinationPort : Option Nat
  protocol : PacketProtocol
  icmpType : Option Nat
  icmpCode : Option Nat

/-- The elements of a slice value; a nil slice has none. -/
def sliceElems {α : Type} : Option (List α) → List α
  | none => []
  | some l => l

/-- Modelled from the spec: step 2 of `Evaluate`, "`packet.sourceAddress` is contained in
ANY of the set's `fromCIDRs` (if the CIDR list is empty, treat as no source constraint)".
Prefix containment of an address in a CIDR string is the parameter `contains`. -/
def cidrMatches {IP : Type} (contains : String → IP → Bool) (p : Packet IP)
    (rs : RulesValue) : Bool :=
  match sliceElems rs.FromCIDRs with
  | [] => true
  | c :: cs => (c :: cs).any (fun x => contains x.FromCIDR p.sourceAddress)

/-- Modelled from the spec: the port test of step 4, "`packet.destinationPort` is present
in the rule's port list, or falls within its start–end range, or the port list is empty". -/
def portsMatch (ports : List GoInt32) (port : Option Nat) : Bool :=
  match ports, port with
  | [], _ => true
  | _ :: _, none => false
  | [a, b], some d =>
    decide (a.val = d) || decide (b.val = d) ||
      (decide (a.val ≤ d) && decide ((d : Int) ≤ b.val))
  | ps, some d => ps.any (fun x => decide (x.val = d))

/-- Modelled from the spec: step 4 of `Evaluate`, when a `ProtocolRule` matches the
packet; the engine is not in the source. -/
def protocolRuleMatches {IP : Type} (p : Packet IP) (r : ProtocolRuleValue) : Bool :=
  decide (r.Protocol = p.protocol.name) &&
    match p.protocol with
    | .TCP | .UDP | .SCTP => portsMatch (sliceElems r.ProtocolRule.Ports) p.destinationPort
    | .ICMP | .ICMPv6 =>
      decide (p.icmpType.map Int.ofNat = some r.ICMPRule.ICMPType.val) &&
        decide (p.icmpCode.map Int.ofNat = some r.ICMPRule.ICMPCode.val)

/-- Modelled from the spec: step 5 of `Evaluate`, "Allow ⇒ Verdict.Allow, Deny ⇒
Verdict.Deny"; an action that is neither cannot be classified and gives `NoMatch`. -/
def actionVerdict (a : IngressNodeFirewallActionType) : Verdict :=
  if a = IngressNodeFirewallAllow then Verdict.Allow
  else if a = DIngressNodeFirewallDeny then Verdict.Deny
  else Verdict.NoMatch

/-- Modelled from the spec: steps 3 and 5 of `Evaluate`, the verdict of the first
matching `ProtocolRule` of a rule set, if any. -/
def firstMatch {IP : Type} (p : Packet IP) : List ProtocolRuleValue → Option Verdict
  | [] => none
  | r :: rs => if protocolRuleMatches p r then some (actionVerdict r.Action) else firstMatch p rs

/-- Modelled from the spec: `Evaluate(packet, ruleSets) -> Verdict` of section 4.1; the
engine is not in the source.  Rule sets are tried in order; a set whose CIDRs do not
contain the source address, or that has no matching protocol rule, is skipped; when no
set is left the verdict is `NoMatch`. -/
def Evaluate {IP : Type} (contains : String → IP → Bool) (p : Packet IP) :
    List RulesValue → Verdict
  | [] => Verdict.NoMatch
  | rs :: rest =>
    if cidrMatches contains p rs then
      match firstMatch p (sliceElems rs.FirewallProtocolRules) with
      | some v => v
      | none => Evaluate contains p rest
    else Evaluate contains p rest

/-- Modelled from the spec: `Evaluate` on the rule sets held by an
`IngressNodeFirewallSpec`. -/
def EvaluateSpec {IP : Type} (contains : String → IP → Bool) (p : Packet IP) (h : Heap)
    (s : IngressNodeFirewallSpec) : Verdict :=
  Evaluate contains p (sliceElems (s.value h).Ingress)

/-- Modelled from the spec: a non-empty run of decimal digits, as in the parts of a CIDR
string ("must parse as a valid CIDR"); no parser is in the source. -/
def parseDecimal : List Char → Option Nat
  | [] => none
  | c :: cs =>
    (c :: cs).foldl
      (fun acc d =>
        match acc with
        | none => none
        | some n => if d.isDigit then some (10 * n + (d.toNat - 48)) else none)
      (some 0)

/-- Modelled from the spec: a dotted-quad IPv4 address read as a number below 2^32; no
parser is in the source. -/
def parseIPv4 (cs : List Char) : Option Nat :=
  match (splitChars '.' cs).map parseDecimal with
  | [some a, some b, some c, some d] =>
    if a < 256 ∧ b < 256 ∧ c < 256 ∧ d < 256 then some (((a * 256 + b) * 256 + c) * 256 + d)
    else none
  | _ => none

/-- Modelled from the spec: "matching is purely prefix containment of the packet's source
address", for IPv4 CIDR strings `a.b.c.d/n` and addresses given as numbers; one instance
of the containment parameter of `Evaluate`. -/
def ipv4Contains (cidr : String) (addr : Nat) : Bool :=
  match splitChars '/' cidr.toList with
  | [a, n] =>
    match parseIPv4 a, parseDecimal n with
    | some net, some n => decide (n ≤ 32) && decide (net / 2 ^ (32 - n) = addr / 2 ^ (32 - n))
    | _, _ => false
  | _ => false

/-- Scenario A of the specification: deny TCP port 22 from `10.0.0.0/8`. -/
def scenarioDeny : RulesValue :=
  ⟨some [⟨"10.0.0.0/8"⟩],
   some [⟨⟨some [⟨22, by decide⟩]⟩, IngressNodeFirewallICMPRule.zero, "TCP", "Deny"⟩]⟩

/-- Allow every TCP port from everywhere. -/
def scenarioAllow : RulesValue :=
  ⟨some [⟨"0.0.0.0/0"⟩],
   some [⟨⟨some []⟩, IngressNodeFirewallICMPRule.zero, "TCP", "Allow"⟩]⟩

/-- A TCP packet from `10.1.2.3` to port 22. -/
def scenarioPacket : Packet Nat :=
  ⟨10 * 2 ^ 24 + 1 * 2 ^ 16 + 2 * 2 ^ 8 + 3, some 22, PacketProtocol.TCP, none, none⟩

/-! ## Example data -/

/-- A heap with one backing array of each kind. -/
def exampleHeap : Heap :=
  { ports := [[⟨1, by decide⟩, ⟨22, by decide⟩, ⟨80, by decide⟩, ⟨443, by decide⟩]],
    cidrs := [[⟨"10.0.0.0/8"⟩, ⟨"::/0"⟩]],
    prules := [[⟨⟨some ⟨0, 1, 2⟩⟩, IngressNodeFirewallICMPRule.zero, "TCP", "Deny"⟩,
                ⟨⟨none⟩, ⟨⟨8, by decide⟩, GoInt8.zero⟩, "ICMP", "Allow"⟩,
                ⟨⟨some ⟨0, 3, 0⟩⟩, IngressNodeFirewallICMPRule.zero, "UDP", "Deny"⟩]],
    rules := [[⟨some ⟨0, 0, 2⟩, some ⟨0, 0, 3⟩⟩, ⟨none, some ⟨0, 1, 1⟩⟩,
               ⟨some ⟨0, 1, 0⟩, none⟩]] }

/-- The first rule set of `exampleHeap`. -/
def exampleRules : IngressNodeFirewallRules := ⟨some ⟨0, 0, 2⟩, some ⟨0, 0, 3⟩⟩

/-- The ports `[22, 80]` of the first protocol rule of `exampleHeap`. -/
def exampleProtoRule : IngressNodeFirewallProtoRule := ⟨some ⟨0, 1, 2⟩⟩

/-- A spec with three rule sets stored in `exampleHeap`. -/
def exampleSpec : IngressNodeFirewallSpec := ⟨some ⟨0, 0, 3⟩⟩

/-- Go `p.DeepCopyInto(q)` followed by `p.DeepCopyInto(p)`, for `p = exampleProtoRule` and
a fresh `q`: the heap, `*q` and `*p` afterwards. -/
def protoRuleOntoReceiver :
    Heap × IngressNodeFirewallProtoRule × IngressNodeFirewallProtoRule :=
  let r1 := IngressNodeFirewallProtoRule.DeepCopyInto exampleHeap
    (Operands.two exampleProtoRule IngressNodeFirewallProtoRule.zero)
  let r2 := IngressNodeFirewallProtoRule.DeepCopyInto r1.1 (Operands.same r1.2.readIn)
  (r2.1, r1.2.readOut, r2.2.readOut)

/-- Go `r.DeepCopyInto(q)` followed by `r.DeepCopyInto(r)`, for `r = exampleRules` and a
fresh `q`: the heap, `*q` and `*r` afterwards. -/
def rulesOntoReceiver : Heap × IngressNodeFirewallRules × IngressNodeFirewallRules :=
  let r1 := IngressNodeFirewallRules.DeepCopyInto exampleHeap
    (Operands.two exampleRules IngressNodeFirewallRules.zero)
  let r2 := IngressNodeFirewallRules.DeepCopyInto r1.1 (Operands.same r1.2.readIn)
  (r2.1, r1.2.readOut, r2.2.readOut)

/-- Go `s.DeepCopyInto(q)` followed by `s.DeepCopyInto(s)`, for `s = exampleSpec` and a
fresh `q`: the heap, `*q` and `*s` afterwards. -/
def specOntoReceiver : Heap × IngressNodeFirewallSpec × IngressNodeFirewallSpec :=
  let r1 := IngressNodeFirewallSpec.DeepCopyInto exampleHeap
    (Operands.two exampleSpec IngressNodeFirewallSpec.zero)
  let r2 := IngressNodeFirewallSpec.DeepCopyInto r1.1 (Operands.same r1.2.readIn)
  (r2.1, r1.2.readOut, r2.2.readOut)

/-! # Theorems -/

/-! ### Backing arrays -/

theorem Mem.keeps_refl {α : Type} (lo : Nat) (m : Mem α) : Mem.Keeps lo m m :=
  ⟨Nat.le_refl _, fun _ _ _ => rfl⟩

theorem Mem.keeps_trans {α : Type} {lo : Nat} {m m' m'' : Mem α}
    (h1 : Mem.Keeps lo m m') (h2 : Mem.Keeps lo m' m'') : Mem.Keeps lo m m'' :=
  ⟨Nat.le_trans h1.1 h2.1, fun a hlo ha => by
    rw [h2.2 a hlo (Nat.lt_of_lt_of_le ha h1.1), h1.2 a hlo ha]⟩

theorem Mem.keeps_mono {α : Type} {lo lo' : Nat} {m m' : Mem α} (hle : lo ≤ lo')
    (h : Mem.Keeps lo m m') : Mem.Keeps lo' m m' :=
  ⟨h.1, fun a hlo ha => h.2 a (Nat.le_trans hle hlo) ha⟩

theorem Mem.keeps_of_prefix {α : Type} (lo : Nat) {m m' : Mem α} (h : m <+: m') :
    Mem.Keeps lo m m' := by
  obtain ⟨t, rfl⟩ := h
  refine ⟨by simp, fun a _ ha => ?_⟩
  exact List.getD_append m t [] a ha

theorem Mem.getD_poke_ne {α : Type} (m : Mem α) {arr a : Nat} (idx : Nat) (v : α)
    (hne : arr ≠ a) :
    (m.poke arr idx v).getD a [] = m.getD a [] := by
  simp [Mem.poke, List.getD_eq_getElem?_getD, List.getElem?_set, hne]

theorem Mem.length_poke {α : Type} (m : Mem α) (arr idx : Nat) (v : α) :
    (m.poke arr idx v).length = m.length := by
  simp [Mem.poke]

theorem Mem.keeps_poke_below {α : Type} {lo : Nat} (m : Mem α) {arr : Nat} (idx : Nat) (v : α)
    (h : arr < lo) : Mem.Keeps lo m (m.poke arr idx v) :=
  ⟨by rw [Mem.length_poke], fun a hlo _ => Mem.getD_poke_ne m idx v (by omega)⟩

theorem Mem.keeps_poke_above {α : Type} (lo : Nat) {m0 m : Mem α} {arr : Nat} (idx : Nat) (v : α)
    (hp : m0 <+: m) (h : m0.length ≤ arr) : Mem.Keeps lo m0 (m.poke arr idx v) := by
  have hk := Mem.keeps_of_prefix lo hp
  refine ⟨by rw [Mem.length_poke]; exact hk.1, fun a hlo ha => ?_⟩
  rw [Mem.getD_poke_ne m idx v (by omega)]
  exact hk.2 a hlo ha

theorem Slice.validIn_keeps {α : Type} {lo : Nat} {m m' : Mem α} {s : Slice}
    (hk : Mem.Keeps lo m m') (hv : s.ValidIn m lo) : s.ValidIn m' lo := by
  rcases hv with h0 | ⟨h1, h2, h3⟩
  · exact Or.inl h0
  · exact Or.inr ⟨h1, Nat.lt_of_lt_of_le h2 hk.1, by rw [hk.2 _ h1 h2]; exact h3⟩

theorem Slice.validIn_mono {α : Type} {lo lo' : Nat} {m : Mem α} {s : Slice}
    (hle : lo' ≤ lo) (hv : s.ValidIn m lo) : s.ValidIn m lo' :=
  hv.imp id (fun hv => ⟨Nat.le_trans hle hv.1, hv.2.1, hv.2.2⟩)

theorem Slice.validIn_pos {α : Type} {lo : Nat} {m : Mem α} {s : Slice}
    (hv : s.ValidIn m lo) (hpos : 0 < s.len) :
    lo ≤ s.arr ∧ s.arr < m.length ∧ s.off + s.len ≤ (m.getD s.arr []).length := by
  rcases hv with h0 | hv
  · omega
  · exact hv

theorem Mem.read_keeps {α : Type} {lo : Nat} {m m' : Mem α} {s : Slice}
    (hk : Mem.Keeps lo m m') (hv : s.ValidIn m lo) : m'.read s = m.read s := by
  unfold Mem.read
  rcases hv with h0 | hv
  · rw [h0, List.take_zero, List.take_zero]
  · rw [hk.2 _ hv.1 hv.2.1]

theorem Mem.length_read {α : Type} {lo : Nat} {m : Mem α} {s : Slice} (hv : s.ValidIn m lo) :
    (m.read s).length = s.len := by
  simp only [Mem.read, List.length_take, List.length_drop]
  rcases hv with h0 | hv
  · omega
  · have := hv.2.2
    omega

theorem Mem.getElem?_read {α : Type} {lo : Nat} {m : Mem α} {s : Slice} (zero : α)
    (hv : s.ValidIn m lo) {i : Nat} (hi : i < s.len) :
    (m.read s)[i]? = some (m.index zero s i) := by
  have := (Slice.validIn_pos hv (by omega)).2.2
  simp only [Mem.read, Mem.index]
  generalize m.getD s.arr [] = a at *
  have hlt : s.off + i < a.length := by omega
  rw [List.getElem?_take_of_lt hi, List.getElem?_drop, List.getD_eq_getElem?_getD,
    List.getElem?_eq_getElem hlt]
  rfl

/-- `make` followed by `copy` of a valid slice appends its elements as a new array. -/
theorem Mem.make_copy {α : Type} {lo : Nat} (m : Mem α) (zero : α) {s : Slice}
    (hv : s.ValidIn m lo) :
    (m.make zero s.len).1.copy (some (m.make zero s.len).2) (some s) = m ++ [m.read s] := by
  have hlen := Mem.length_read hv
  have hk : Mem.Keeps lo m (m ++ [List.replicate s.len zero]) :=
    Mem.keeps_of_prefix lo (List.prefix_append _ _)
  have hr := Mem.read_keeps hk hv
  simp only [Mem.make, Mem.copy]
  rw [hr]
  simp [hlen, List.getD_eq_getElem?_getD]

theorem Mem.store_last {α : Type} (m : Mem α) (A : List α) (n i : Nat) (v : α) :
    (m ++ [A]).store ⟨m.length, 0, n⟩ i v = m ++ [A.set i v] := by
  simp [Mem.store, Mem.poke, List.getD_eq_getElem?_getD, List.set_append]

theorem Mem.read_last {α : Type} (m : Mem α) (A : List α) (n : Nat) :
    (m ++ [A]).read ⟨m.length, 0, n⟩ = A.take n := by
  simp [Mem.read, List.getD_eq_getElem?_getD]

theorem Mem.index_append {α : Type} (m t : Mem α) (zero : α) {s : Slice} (i : Nat)
    (h : s.arr < m.length) : (m ++ t).index zero s i = m.index zero s i := by
  simp only [Mem.index]
  rw [List.getD_append m t [] s.arr h]

theorem prefix_of_eq {α : Type} {l l' : List α} (h : l' = l) : l <+: l' :=
  h ▸ List.prefix_refl l

theorem Operands.readIn_two {T : Type} (i o : T) : (Operands.two i o).readIn = i := rfl

theorem Operands.readOut_two {T : Type} (i o : T) : (Operands.two i o).readOut = o := rfl

theorem Operands.writeOut_two {T : Type} (x i o : T) :
    (Operands.two i o).writeOut x = Operands.two i x := rfl

theorem Operands.field_two {T U : Type} (f : T → U) (i o : T) :
    (Operands.two i o).field f = Operands.two (f i) (f o) := rfl

/-- Elements of slices in different backing arrays are different structs. -/
theorem Operands.elems_of_ne {T : Type} (m : Mem T) (zero : T) {src dst : Slice} (i : Nat)
    (hne : src.arr ≠ dst.arr) :
    Operands.elems m zero src dst i =
      Operands.two (m.index zero src i) (m.index zero dst i) := by
  simp [Operands.elems, hne]

theorem forRange_succ {σ : Type} (body : Nat → σ → σ) (n : Nat) (s : σ) :
    forRange body (n + 1) s = body n (forRange body n s) := rfl

theorem Bounds.le_refl (a : Bounds) : a.le a :=
  ⟨Nat.le_refl _, Nat.le_refl _, Nat.le_refl _, Nat.le_refl _⟩

theorem Bounds.zero_le (a : Bounds) : Bounds.zero.le a :=
  ⟨Nat.zero_le _, Nat.zero_le _, Nat.zero_le _, Nat.zero_le _⟩

theorem Heap.ext_refl (h : Heap) : h.Ext h :=
  ⟨List.prefix_refl _, List.prefix_refl _, List.prefix_refl _, List.prefix_refl _⟩

theorem Heap.ext_trans {h h' h'' : Heap} (a : h.Ext h') (b : h'.Ext h'') : h.Ext h'' :=
  ⟨a.1.trans b.1, a.2.1.trans b.2.1, a.2.2.1.trans b.2.2.1, a.2.2.2.trans b.2.2.2⟩

theorem Heap.ext_size_le {h h' : Heap} (a : h.Ext h') : h.size.le h'.size :=
  ⟨a.1.length_le, a.2.1.length_le, a.2.2.1.length_le, a.2.2.2.length_le⟩

theorem Heap.ext_keeps (lo : Bounds) {h h' : Heap} (a : h.Ext h') : Heap.Keeps lo h h' :=
  ⟨Mem.keeps_of_prefix _ a.1, Mem.keeps_of_prefix _ a.2.1, Mem.keeps_of_prefix _ a.2.2.1,
   Mem.keeps_of_prefix _ a.2.2.2⟩

theorem Heap.keeps_write_below {lo : Bounds} (h : Heap) (w : Write) (hw : w.loc.Below lo) :
    Heap.Keeps lo h (h.write w) := by
  cases w <;>
    simp only [Write.loc, Loc.Below] at hw <;>
    simp only [Heap.write, Heap.Keeps] <;>
    refine ⟨?_, ?_, ?_, ?_⟩ <;>
    first
      | exact Mem.keeps_refl _ _
      | exact Mem.keeps_poke_below _ _ _ hw

theorem Heap.keeps_write_above (lo : Bounds) {h0 h : Heap} (w : Write) (he : h0.Ext h)
    (hw : w.loc.AtLeast h0.size) : Heap.Keeps lo h0 (h.write w) := by
  have hk := Heap.ext_keeps lo he
  cases w <;>
    simp only [Write.loc, Loc.AtLeast, Heap.size] at hw <;>
    simp only [Heap.write, Heap.Keeps] <;>
    refine ⟨?_, ?_, ?_, ?_⟩ <;>
    first
      | exact hk.1
      | exact hk.2.1
      | exact hk.2.2.1
      | exact hk.2.2.2
      | exact Mem.keeps_poke_above _ _ _ he.1 hw
      | exact Mem.keeps_poke_above _ _ _ he.2.1 hw
      | exact Mem.keeps_poke_above _ _ _ he.2.2.1 hw
      | exact Mem.keeps_poke_above _ _ _ he.2.2.2 hw

/-! ### Frame lemmas: a struct reads the same in a heap that keeps its arrays -/

theorem IngressNodeFirewallProtoRule.frame_protoRule {h h' : Heap} {lo : Bounds}
    {p : IngressNodeFirewallProtoRule} (hk : Mem.Keeps lo.ports h.ports h'.ports)
    (hwf : p.WF h lo) : p.WF h' lo ∧ p.value h' = p.value h := by
  obtain ⟨ports⟩ := p
  cases ports with
  | none => exact ⟨fun s hs => by simp at hs, rfl⟩
  | some s =>
    have hv : s.ValidIn h.ports lo.ports := hwf s rfl
    refine ⟨fun s' hs' => ?_, ?_⟩
    · cases hs'; exact Slice.validIn_keeps hk hv
    · simp [IngressNodeFirewallProtoRule.value, Mem.read_keeps hk hv]

theorem IngressNodeFirewallProtocolRule.frame_protocolRule {h h' : Heap} {lo : Bounds}
    {p : IngressNodeFirewallProtocolRule} (hk : Mem.Keeps lo.ports h.ports h'.ports)
    (hwf : p.WF h lo) : p.WF h' lo ∧ p.value h' = p.value h := by
  have := IngressNodeFirewallProtoRule.frame_protoRule hk hwf
  exact ⟨this.1, by simp [IngressNodeFirewallProtocolRule.value, this.2]⟩

theorem IngressNodeFirewallProtocolRule.WF_mono_protocolRule {h : Heap} {lo lo' : Bounds}
    {p : IngressNodeFirewallProtocolRule} (hle : lo'.ports ≤ lo.ports) (hwf : p.WF h lo) :
    p.WF h lo' :=
  fun s hs => Slice.validIn_mono hle (hwf s hs)

theorem IngressNodeFirewallRules.frame_rules {h h' : Heap} {lo : Bounds}
    {r : IngressNodeFirewallRules} (hp : Mem.Keeps lo.ports h.ports h'.ports)
    (hc : Mem.Keeps lo.cidrs h.cidrs h'.cidrs) (hr : Mem.Keeps lo.prules h.prules h'.prules)
    (hwf : r.WF h lo) : r.WF h' lo ∧ r.value h' = r.value h ∧ r.locs h' = r.locs h := by
  obtain ⟨cs, ps⟩ := r
  obtain ⟨hwc, hwp⟩ := hwf
  have e1 : cs.map h'.cidrs.read = cs.map h.cidrs.read := by
    cases cs with
    | none => rfl
    | some s => simp [Mem.read_keeps hc (hwc s rfl)]
  cases ps with
  | none =>
    refine ⟨⟨fun s hs => Slice.validIn_keeps hc (hwc s hs), fun s hs => by simp at hs⟩,
      ?_, rfl⟩
    simp only [IngressNodeFirewallRules.value, e1, Option.map_none']
  | some s =>
    obtain ⟨hv, hel⟩ := hwp s rfl
    have hrd := Mem.read_keeps hr hv
    refine ⟨⟨fun s hs => Slice.validIn_keeps hc (hwc s hs), fun s' hs' => ?_⟩, ?_, ?_⟩
    · cases hs'
      refine ⟨Slice.validIn_keeps hr hv, fun p hp' => ?_⟩
      rw [hrd] at hp'
      exact (IngressNodeFirewallProtocolRule.frame_protocolRule hp (hel p hp')).1
    · simp only [IngressNodeFirewallRules.value, e1, Option.map_some', hrd]
      congr 2
      exact List.map_congr_left
        (fun p hp' => (IngressNodeFirewallProtocolRule.frame_protocolRule hp (hel p hp')).2)
    · simp only [IngressNodeFirewallRules.locs, hrd]

theorem IngressNodeFirewallRules.WF_mono_rules {h : Heap} {lo lo' : Bounds}
    {r : IngressNodeFirewallRules} (hle : lo'.le lo) (hwf : r.WF h lo) : r.WF h lo' :=
  ⟨fun s hs => Slice.validIn_mono hle.2.1 (hwf.1 s hs),
   fun s hs => ⟨Slice.validIn_mono hle.2.2.1 (hwf.2 s hs).1,
     fun p hp =>
       IngressNodeFirewallProtocolRule.WF_mono_protocolRule hle.1 ((hwf.2 s hs).2 p hp)⟩⟩

theorem IngressNodeFirewallSpec.frame_spec {h h' : Heap} {lo : Bounds}
    {s : IngressNodeFirewallSpec} (hk : Heap.Keeps lo h h') (hwf : s.WF h lo) :
    s.WF h' lo ∧ s.value h' = s.value h ∧ s.locs h' = s.locs h := by
  obtain ⟨ing⟩ := s
  cases ing with
  | none => exact ⟨fun s hs => by simp at hs, rfl, rfl⟩
  | some sl =>
    obtain ⟨hv, hel⟩ := hwf sl rfl
    have hrd := Mem.read_keeps hk.2.2.2 hv
    have hf := fun r (hr : r ∈ h.rules.read sl) =>
      IngressNodeFirewallRules.frame_rules hk.1 hk.2.1 hk.2.2.1 (hel r hr)
    refine ⟨fun s' hs' => ?_, ?_, ?_⟩
    · cases hs'
      refine ⟨Slice.validIn_keeps hk.2.2.2 hv, fun r hr => ?_⟩
      rw [hrd] at hr
      exact (hf r hr).1
    · simp only [IngressNodeFirewallSpec.value, Option.map_some', hrd]
      congr 2
      exact List.map_congr_left (fun r hr => (hf r hr).2.1)
    · simp only [IngressNodeFirewallSpec.locs, hrd]
      congr 2
      exact List.map_congr_left (fun r hr => (hf r hr).2.2)

theorem Mem.make_copy' {α : Type} {lo : Nat} (m : Mem α) (zero : α) {s : Slice}
    (hv : s.ValidIn m lo) :
    (m ++ [List.replicate s.len zero]).copy (some ⟨m.length, 0, s.len⟩) (some s) =
      m ++ [m.read s] :=
  Mem.make_copy m zero hv

/-- A freshly appended array that holds the elements of a valid slice is a
valid slice at the new address. -/
theorem Slice.validIn_fresh {α : Type} {lo : Nat} (m : Mem α) {s : Slice}
    (hv : s.ValidIn m lo) :
    (Slice.mk m.length 0 s.len).ValidIn (m ++ [m.read s]) m.length := by
  refine Or.inr ⟨Nat.le_refl _, by simp, ?_⟩
  simp [List.getD_eq_getElem?_getD, Mem.length_read hv]

theorem Mem.read_fresh {α : Type} {lo : Nat} (m : Mem α) {s : Slice} (hv : s.ValidIn m lo) :
    (m ++ [m.read s]).read ⟨m.length, 0, s.len⟩ = m.read s := by
  rw [Mem.read_last, List.take_of_length_le (by rw [Mem.length_read hv])]

theorem IngressNodeFirewallProtoRule.DeepCopyInto_post_protoRule (h : Heap)
    (inp out : IngressNodeFirewallProtoRule) (lo : Bounds) (hwf : inp.WF h lo) :
    h.ports <+: (IngressNodeFirewallProtoRule.DeepCopyInto h (Operands.two inp out)).1.ports ∧
    (IngressNodeFirewallProtoRule.DeepCopyInto h (Operands.two inp out)).1.cidrs = h.cidrs ∧
    (IngressNodeFirewallProtoRule.DeepCopyInto h (Operands.two inp out)).1.prules = h.prules ∧
    (IngressNodeFirewallProtoRule.DeepCopyInto h (Operands.two inp out)).1.rules = h.rules ∧
    (IngressNodeFirewallProtoRule.DeepCopyInto h (Operands.two inp out)).2.readOut.WF
        (IngressNodeFirewallProtoRule.DeepCopyInto h (Operands.two inp out)).1 h.size ∧
    (IngressNodeFirewallProtoRule.DeepCopyInto h (Operands.two inp out)).2.readOut.value
        (IngressNodeFirewallProtoRule.DeepCopyInto h (Operands.two inp out)).1 = inp.value h := by
  obtain ⟨ports⟩ := inp
  cases ports with
  | none =>
    simp only [IngressNodeFirewallProtoRule.DeepCopyInto, Operands.writeOut_two,
      Operands.readIn_two, Operands.readOut_two]
    exact ⟨List.prefix_refl _, trivial, trivial, trivial, fun s hs => by simp at hs, trivial⟩
  | some s =>
    have hv : s.ValidIn h.ports lo.ports := hwf s rfl
    simp only [IngressNodeFirewallProtoRule.DeepCopyInto, Operands.writeOut_two,
      Operands.readIn_two, Operands.readOut_two, Mem.make, Mem.make_copy' _ _ hv]
    refine ⟨List.prefix_append _ _, trivial, trivial, trivial, fun s' hs' => ?_, ?_⟩
    · cases hs'
      exact Slice.validIn_fresh _ hv
    · simp only [IngressNodeFirewallProtoRule.value, Option.map_some', Mem.read_fresh _ hv]

theorem IngressNodeFirewallProtocolRule.DeepCopyInto_post_protocolRule (h : Heap)
    (inp out : IngressNodeFirewallProtocolRule) (lo : Bounds) (hwf : inp.WF h lo) :
    h.ports <+: (IngressNodeFirewallProtocolRule.DeepCopyInto h (Operands.two inp out)).1.ports ∧
    (IngressNodeFirewallProtocolRule.DeepCopyInto h (Operands.two inp out)).1.cidrs = h.cidrs ∧
    (IngressNodeFirewallProtocolRule.DeepCopyInto h (Operands.two inp out)).1.prules = h.prules ∧
    (IngressNodeFirewallProtocolRule.DeepCopyInto h (Operands.two inp out)).1.rules = h.rules ∧
    (IngressNodeFirewallProtocolRule.DeepCopyInto h (Operands.two inp out)).2.readOut.WF
        (IngressNodeFirewallProtocolRule.DeepCopyInto h (Operands.two inp out)).1 h.size ∧
    (IngressNodeFirewallProtocolRule.DeepCopyInto h (Operands.two inp out)).2.readOut.value
        (IngressNodeFirewallProtocolRule.DeepCopyInto h (Operands.two inp out)).1 = inp.value h :=
        by
  have hp := IngressNodeFirewallProtoRule.DeepCopyInto_post_protoRule h inp.ProtocolRule
    inp.ProtocolRule lo hwf
  simp only [IngressNodeFirewallProtocolRule.DeepCopyInto, Operands.writeOut_two,
    Operands.readIn_two, Operands.readOut_two, Operands.field_two]
  refine ⟨hp.1, hp.2.1, hp.2.2.1, hp.2.2.2.1, hp.2.2.2.2.1, ?_⟩
  simp only [IngressNodeFirewallProtocolRule.value, hp.2.2.2.2.2]

theorem take_succ_set {α : Type} (A : List α) (k : Nat) (v : α) (hk : k < A.length) :
    (A.set k v).take (k + 1) = A.take k ++ [v] := by
  have h1 : (A.set k v).take k = A.take k := by
    rw [List.set_take, List.set_eq_of_length_le (by simp)]
  rw [List.take_succ, List.getElem?_set, h1]
  simp [hk]

theorem Mem.take_succ_read {α : Type} {lo : Nat} {m : Mem α} {s : Slice} (zero : α)
    (hv : s.ValidIn m lo) {k : Nat} (hk : k < s.len) :
    (m.read s).take (k + 1) = (m.read s).take k ++ [m.index zero s k] := by
  rw [List.take_succ, Mem.getElem?_read zero hv hk]
  rfl

theorem Mem.index_mem_read {α : Type} {lo : Nat} {m : Mem α} {s : Slice} (zero : α)
    (hv : s.ValidIn m lo) {k : Nat} (hk : k < s.len) : m.index zero s k ∈ m.read s :=
  List.getElem?_mem (Mem.getElem?_read zero hv hk)

/-- The state of the loop of `IngressNodeFirewallRules.DeepCopyInto` after `k` turns. -/
theorem IngressNodeFirewallRules.loop_inv_rules (h1 : Heap) (src : Slice) (lo : Bounds)
    (hv : src.ValidIn h1.prules lo.prules)
    (hel : ∀ p ∈ h1.prules.read src, p.WF h1 lo) (k : Nat) (hk : k ≤ src.len) (H : Heap)
    (hH : forRange (IngressNodeFirewallRules.copyElem src ⟨h1.prules.length, 0, src.len⟩) k
      { h1 with prules :=
          h1.prules ++ [List.replicate src.len IngressNodeFirewallProtocolRule.zero] } = H) :
    ∃ A : List IngressNodeFirewallProtocolRule,
      h1.ports <+: H.ports ∧ H.cidrs = h1.cidrs ∧ H.rules = h1.rules ∧
      H.prules = h1.prules ++ [A] ∧ A.length = src.len ∧
      (∀ e ∈ A.take k, e.WF H h1.size) ∧
      (A.take k).map (fun e => e.value H) =
        ((h1.prules.read src).take k).map (fun e => e.value h1) := by
  induction k generalizing H with
  | zero =>
    subst hH
    exact ⟨_, List.prefix_refl _, rfl, rfl, rfl, by simp, by simp, by simp⟩
  | succ k ih =>
    obtain ⟨A, hports, hHc, hHr, hHp, hlen, hwf, hval⟩ := ih (by omega) _ rfl
    rw [forRange_succ] at hH
    generalize forRange
        (IngressNodeFirewallRules.copyElem src ⟨h1.prules.length, 0, src.len⟩) k
        { h1 with prules :=
            h1.prules ++ [List.replicate src.len IngressNodeFirewallProtocolRule.zero] } = H'
      at hports hHc hHr hHp hwf hval hH
    have hklt : k < src.len := by omega
    have hkp : Mem.Keeps lo.ports h1.ports H'.ports := Mem.keeps_of_prefix _ hports
    -- the element read in this turn
    have hx : H'.prules.index IngressNodeFirewallProtocolRule.zero src k =
        h1.prules.index IngressNodeFirewallProtocolRule.zero src k := by
      rw [hHp, Mem.index_append _ _ _ _ (Slice.validIn_pos hv (by omega)).2.1]
    have hxwf1 := hel _ (Mem.index_mem_read IngressNodeFirewallProtocolRule.zero hv hklt)
    have hxf := IngressNodeFirewallProtocolRule.frame_protocolRule hkp hxwf1
    have post := IngressNodeFirewallProtocolRule.DeepCopyInto_post_protocolRule H'
      (h1.prules.index IngressNodeFirewallProtocolRule.zero src k)
      (H'.prules.index IngressNodeFirewallProtocolRule.zero ⟨h1.prules.length, 0, src.len⟩ k)
      lo hxf.1
    have hne : src.arr ≠ (Slice.mk h1.prules.length 0 src.len).arr :=
      Nat.ne_of_lt (Slice.validIn_pos hv (by omega)).2.1
    simp only [IngressNodeFirewallRules.copyElem, Operands.elems_of_ne _ _ _ hne, hx] at hH
    generalize IngressNodeFirewallProtocolRule.DeepCopyInto H' (Operands.two
      (h1.prules.index IngressNodeFirewallProtocolRule.zero src k)
      (H'.prules.index IngressNodeFirewallProtocolRule.zero
        ⟨h1.prules.length, 0, src.len⟩ k)) = r
      at post hH
    obtain ⟨p1, p2, p3, p4, p5, p6⟩ := post
    subst hH
    have hkp' : Mem.Keeps h1.size.ports H'.ports r.1.ports := Mem.keeps_of_prefix _ p1
    refine ⟨A.set k r.2.readOut, hports.trans p1, p2.trans hHc, p4.trans hHr, ?_,
      by simp [hlen], ?_, ?_⟩
    · show r.1.prules.store _ _ _ = _
      rw [p3, hHp, Mem.store_last]
    · rw [take_succ_set A k r.2.readOut (by omega)]
      intro e he
      rcases List.mem_append.1 he with he | he
      · exact (IngressNodeFirewallProtocolRule.frame_protocolRule hkp' (hwf e he)).1
      · simp only [List.mem_singleton] at he
        subst he
        exact @IngressNodeFirewallProtocolRule.WF_mono_protocolRule _ H'.size _ _
          hports.length_le p5
    · rw [take_succ_set A k r.2.readOut (by omega),
        Mem.take_succ_read IngressNodeFirewallProtocolRule.zero hv hklt,
        List.map_append, List.map_append, ← hval]
      congr 1
      · exact List.map_congr_left
          (fun e he => (IngressNodeFirewallProtocolRule.frame_protocolRule hkp' (hwf e he)).2)
      · simp only [List.map_cons, List.map_nil, List.cons.injEq, and_true]
        exact p6.trans hxf.2

theorem IngressNodeFirewallRules.DeepCopyInto_post_rules (h : Heap)
    (inp out : IngressNodeFirewallRules) (lo : Bounds) (hwf : inp.WF h lo) :
    h.ports <+: (IngressNodeFirewallRules.DeepCopyInto h (Operands.two inp out)).1.ports ∧
    h.cidrs <+: (IngressNodeFirewallRules.DeepCopyInto h (Operands.two inp out)).1.cidrs ∧
    h.prules <+: (IngressNodeFirewallRules.DeepCopyInto h (Operands.two inp out)).1.prules ∧
    (IngressNodeFirewallRules.DeepCopyInto h (Operands.two inp out)).1.rules = h.rules ∧
    (IngressNodeFirewallRules.DeepCopyInto h (Operands.two inp out)).2.readOut.WF
        (IngressNodeFirewallRules.DeepCopyInto h (Operands.two inp out)).1 h.size ∧
    (IngressNodeFirewallRules.DeepCopyInto h (Operands.two inp out)).2.readOut.value
        (IngressNodeFirewallRules.DeepCopyInto h (Operands.two inp out)).1 = inp.value h := by
  obtain ⟨cs, ps⟩ := inp
  obtain ⟨hwc, hwp⟩ := hwf
  cases ps with
  | none =>
    cases cs with
    | none =>
      simp only [IngressNodeFirewallRules.DeepCopyInto, Operands.writeOut_two,
        Operands.readIn_two, Operands.readOut_two]
      exact ⟨List.prefix_refl _, List.prefix_refl _, List.prefix_refl _, trivial,
        ⟨fun s hs => by simp at hs, fun s hs => by simp at hs⟩, trivial⟩
    | some sc =>
      have hvc := hwc sc rfl
      simp only [IngressNodeFirewallRules.DeepCopyInto, Operands.writeOut_two,
        Operands.readIn_two, Operands.readOut_two, Mem.make, Mem.make_copy' _ _ hvc]
      refine ⟨List.prefix_refl _, List.prefix_append _ _, List.prefix_refl _, trivial,
        ⟨fun s hs => ?_, fun s hs => by simp at hs⟩, ?_⟩
      · cases hs
        exact Slice.validIn_fresh _ hvc
      · simp only [IngressNodeFirewallRules.value, Option.map_some', Mem.read_fresh _ hvc,
          Option.map_none']
  | some src =>
    obtain ⟨hv, hel⟩ := hwp src rfl
    have hlen := Mem.length_read hv
    cases cs with
    | none =>
      simp only [IngressNodeFirewallRules.DeepCopyInto, Operands.writeOut_two,
        Operands.readIn_two, Operands.readOut_two, Mem.make]
      generalize hH : forRange _ _ _ = H
      obtain ⟨A, hports, hHc, hHr, hHp, hAlen, hwf', hval⟩ :=
        IngressNodeFirewallRules.loop_inv_rules h src lo hv hel src.len (Nat.le_refl _) H hH
      rw [List.take_of_length_le (by omega)] at hwf' hval
      rw [List.take_of_length_le (by omega)] at hval
      refine ⟨hports, by rw [hHc], by rw [hHp]; exact List.prefix_append _ _, hHr,
        ⟨fun s hs => by simp at hs, fun s hs => ?_⟩, ?_⟩
      · cases hs
        have hrd : H.prules.read ⟨h.prules.length, 0, src.len⟩ = A := by
          rw [hHp, Mem.read_last, List.take_of_length_le (by omega)]
        refine ⟨Or.inr ⟨Nat.le_refl _, by rw [hHp]; simp, ?_⟩, fun p hp => ?_⟩
        · rw [hHp]; simp [List.getD_eq_getElem?_getD, hAlen]
        · rw [hrd] at hp
          exact hwf' p hp
      · simp only [IngressNodeFirewallRules.value, Option.map_some', Option.map_none']
        rw [hHp, Mem.read_last, List.take_of_length_le (by omega), hval]
    | some sc =>
      have hvc := hwc sc rfl
      simp only [IngressNodeFirewallRules.DeepCopyInto, Operands.writeOut_two,
        Operands.readIn_two, Operands.readOut_two, Mem.make, Mem.make_copy' _ _ hvc]
      generalize hH : forRange _ _ _ = H
      obtain ⟨A, hports, hHc, hHr, hHp, hAlen, hwf', hval⟩ :=
        IngressNodeFirewallRules.loop_inv_rules { h with cidrs := h.cidrs ++ [h.cidrs.read sc] }
          src lo hv hel src.len (Nat.le_refl _) H hH
      simp only at hports hHc hHr hHp hval
      rw [List.take_of_length_le (by omega)] at hwf' hval
      rw [List.take_of_length_le (by omega)] at hval
      refine ⟨hports, by rw [hHc]; exact List.prefix_append _ _,
        by rw [hHp]; exact List.prefix_append _ _, hHr,
        ⟨fun s hs => ?_, fun s hs => ?_⟩, ?_⟩
      · cases hs
        rw [hHc]
        exact Slice.validIn_fresh _ hvc
      · cases hs
        have hrd : H.prules.read ⟨h.prules.length, 0, src.len⟩ = A := by
          rw [hHp]
          exact (Mem.read_last h.prules A src.len).trans
            (List.take_of_length_le (by omega))
        refine ⟨Or.inr ⟨Nat.le_refl _, by rw [hHp]; simp, ?_⟩, fun p hp => ?_⟩
        · rw [hHp]; simp [List.getD_eq_getElem?_getD, hAlen]
        · rw [hrd] at hp
          exact hwf' p hp
      · simp only [IngressNodeFirewallRules.value, Option.map_some']
        rw [hHp, hHc]
        have e1 := Mem.read_fresh h.cidrs hvc
        have e2 : (h.prules ++ [A]).read ⟨h.prules.length, 0, src.len⟩ = A :=
          (Mem.read_last h.prules A src.len).trans (List.take_of_length_le (by omega))
        simp only at e1 e2 ⊢
        rw [e1, e2, hval]
        rfl

/-- The state of the loop of `IngressNodeFirewallSpec.DeepCopyInto` after `k` turns. -/
theorem IngressNodeFirewallSpec.loop_inv_spec (h : Heap) (src : Slice) (lo : Bounds)
    (hv : src.ValidIn h.rules lo.rules)
    (hel : ∀ r ∈ h.rules.read src, r.WF h lo) (k : Nat) (hk : k ≤ src.len) (H : Heap)
    (hH : forRange (IngressNodeFirewallSpec.copyElem src ⟨h.rules.length, 0, src.len⟩) k
      { h with rules :=
          h.rules ++ [List.replicate src.len IngressNodeFirewallRules.zero] } = H) :
    ∃ A : List IngressNodeFirewallRules,
      h.ports <+: H.ports ∧ h.cidrs <+: H.cidrs ∧ h.prules <+: H.prules ∧
      H.rules = h.rules ++ [A] ∧ A.length = src.len ∧
      (∀ e ∈ A.take k, e.WF H h.size) ∧
      (A.take k).map (fun e => e.value H) =
        ((h.rules.read src).take k).map (fun e => e.value h) := by
  induction k generalizing H with
  | zero =>
    subst hH
    exact ⟨_, List.prefix_refl _, List.prefix_refl _, List.prefix_refl _, rfl, by simp,
      by simp, by simp⟩
  | succ k ih =>
    obtain ⟨A, hports, hcidrs, hprules, hHr, hlen, hwf, hval⟩ := ih (by omega) _ rfl
    rw [forRange_succ] at hH
    generalize forRange
        (IngressNodeFirewallSpec.copyElem src ⟨h.rules.length, 0, src.len⟩) k
        { h with rules :=
            h.rules ++ [List.replicate src.len IngressNodeFirewallRules.zero] } = H'
      at hports hcidrs hprules hHr hwf hval hH
    have hklt : k < src.len := by omega
    -- the element read in this turn
    have hx : H'.rules.index IngressNodeFirewallRules.zero src k =
        h.rules.index IngressNodeFirewallRules.zero src k := by
      rw [hHr, Mem.index_append _ _ _ _ (Slice.validIn_pos hv (by omega)).2.1]
    have hxwf1 := hel _ (Mem.index_mem_read IngressNodeFirewallRules.zero hv hklt)
    have hxf := IngressNodeFirewallRules.frame_rules (Mem.keeps_of_prefix _ hports)
      (Mem.keeps_of_prefix _ hcidrs) (Mem.keeps_of_prefix _ hprules) hxwf1
    have post := IngressNodeFirewallRules.DeepCopyInto_post_rules H'
      (h.rules.index IngressNodeFirewallRules.zero src k)
      (H'.rules.index IngressNodeFirewallRules.zero ⟨h.rules.length, 0, src.len⟩ k)
      lo hxf.1
    have hne : src.arr ≠ (Slice.mk h.rules.length 0 src.len).arr :=
      Nat.ne_of_lt (Slice.validIn_pos hv (by omega)).2.1
    simp only [IngressNodeFirewallSpec.copyElem, Operands.elems_of_ne _ _ _ hne, hx] at hH
    generalize IngressNodeFirewallRules.DeepCopyInto H' (Operands.two
      (h.rules.index IngressNodeFirewallRules.zero src k)
      (H'.rules.index IngressNodeFirewallRules.zero ⟨h.rules.length, 0, src.len⟩ k)) = r
      at post hH
    obtain ⟨p1, p2, p3, p4, p5, p6⟩ := post
    subst hH
    have hle : h.size.le H'.size :=
      ⟨hports.length_le, hcidrs.length_le, hprules.length_le, by simp [Heap.size, hHr]⟩
    have hfr := fun (e : IngressNodeFirewallRules) (he : e.WF H' h.size) =>
      @IngressNodeFirewallRules.frame_rules _ r.1 _ _ (Mem.keeps_of_prefix _ p1)
        (Mem.keeps_of_prefix _ p2) (Mem.keeps_of_prefix _ p3) he
    refine ⟨A.set k r.2.readOut, hports.trans p1, hcidrs.trans p2, hprules.trans p3, ?_,
      by simp [hlen], ?_, ?_⟩
    · show r.1.rules.store _ _ _ = _
      rw [p4, hHr, Mem.store_last]
    · rw [take_succ_set A k r.2.readOut (by omega)]
      intro e he
      rcases List.mem_append.1 he with he | he
      · exact (hfr e (hwf e he)).1
      · simp only [List.mem_singleton] at he
        subst he
        exact IngressNodeFirewallRules.WF_mono_rules hle p5
    · rw [take_succ_set A k r.2.readOut (by omega),
        Mem.take_succ_read IngressNodeFirewallRules.zero hv hklt,
        List.map_append, List.map_append, ← hval]
      congr 1
      · exact List.map_congr_left (fun e he => (hfr e (hwf e he)).2.1)
      · simp only [List.map_cons, List.map_nil, List.cons.injEq, and_true]
        exact p6.trans hxf.2.1

/-- What `IngressNodeFirewallSpec.DeepCopyInto` leaves behind: the heap grew by
appended arrays only, the copy lives in the new arrays, and it reads as the
source did. -/
theorem IngressNodeFirewallSpec.DeepCopyInto_post_spec (h : Heap)
    (inp out : IngressNodeFirewallSpec) (lo : Bounds) (hwf : inp.WF h lo) :
    h.Ext (IngressNodeFirewallSpec.DeepCopyInto h (Operands.two inp out)).1 ∧
    (IngressNodeFirewallSpec.DeepCopyInto h (Operands.two inp out)).2.readOut.WF
        (IngressNodeFirewallSpec.DeepCopyInto h (Operands.two inp out)).1 h.size ∧
    (IngressNodeFirewallSpec.DeepCopyInto h (Operands.two inp out)).2.readOut.value
        (IngressNodeFirewallSpec.DeepCopyInto h (Operands.two inp out)).1 = inp.value h := by
  obtain ⟨ing⟩ := inp
  cases ing with
  | none =>
    simp only [IngressNodeFirewallSpec.DeepCopyInto, Operands.writeOut_two,
      Operands.readIn_two, Operands.readOut_two]
    exact ⟨Heap.ext_refl _, fun s hs => by simp at hs, trivial⟩
  | some src =>
    obtain ⟨hv, hel⟩ := hwf src rfl
    have hlen := Mem.length_read hv
    simp only [IngressNodeFirewallSpec.DeepCopyInto, Operands.writeOut_two,
      Operands.readIn_two, Operands.readOut_two, Mem.make]
    generalize hH : forRange _ _ _ = H
    obtain ⟨A, hports, hcidrs, hprules, hHr, hAlen, hwf', hval⟩ :=
      IngressNodeFirewallSpec.loop_inv_spec h src lo hv hel src.len (Nat.le_refl _) H hH
    rw [List.take_of_length_le (by omega)] at hwf' hval
    rw [List.take_of_length_le (by omega)] at hval
    have hrd : H.rules.read ⟨h.rules.length, 0, src.len⟩ = A := by
      rw [hHr, Mem.read_last, List.take_of_length_le (by omega)]
    refine ⟨⟨hports, hcidrs, hprules, by rw [hHr]; exact List.prefix_append _ _⟩,
      fun s hs => ?_, ?_⟩
    · cases hs
      refine ⟨Or.inr ⟨Nat.le_refl _, by rw [hHr]; simp, ?_⟩, fun p hp => ?_⟩
      · rw [hHr]; simp [List.getD_eq_getElem?_getD, hAlen]
      · rw [hrd] at hp
        exact hwf' p hp
    · simp only [IngressNodeFirewallSpec.value, Option.map_some']
      rw [hrd, hval]

/-! ### Where the locations of a well-formed struct lie -/

theorem Slice.locs_port_bounds {h : Heap} {lo : Bounds} {o : Option Slice}
    (hv : ∀ s ∈ o, s.ValidIn h.ports lo.ports) :
    ∀ l ∈ Slice.locs Loc.port o, l.AtLeast lo ∧ l.Below h.size := by
  cases o with
  | none => intro l hl; simp [Slice.locs] at hl
  | some s =>
    intro l hl
    simp only [Slice.locs, List.mem_map] at hl
    obtain ⟨i, hi, rfl⟩ := hl
    have hpos := Slice.validIn_pos (hv s rfl) (by have := List.mem_range.1 hi; omega)
    exact ⟨hpos.1, hpos.2.1⟩

theorem Slice.locs_cidr_bounds {h : Heap} {lo : Bounds} {o : Option Slice}
    (hv : ∀ s ∈ o, s.ValidIn h.cidrs lo.cidrs) :
    ∀ l ∈ Slice.locs Loc.cidr o, l.AtLeast lo ∧ l.Below h.size := by
  cases o with
  | none => intro l hl; simp [Slice.locs] at hl
  | some s =>
    intro l hl
    simp only [Slice.locs, List.mem_map] at hl
    obtain ⟨i, hi, rfl⟩ := hl
    have hpos := Slice.validIn_pos (hv s rfl) (by have := List.mem_range.1 hi; omega)
    exact ⟨hpos.1, hpos.2.1⟩

theorem Slice.locs_prule_bounds {h : Heap} {lo : Bounds} {o : Option Slice}
    (hv : ∀ s ∈ o, s.ValidIn h.prules lo.prules) :
    ∀ l ∈ Slice.locs Loc.prule o, l.AtLeast lo ∧ l.Below h.size := by
  cases o with
  | none => intro l hl; simp [Slice.locs] at hl
  | some s =>
    intro l hl
    simp only [Slice.locs, List.mem_map] at hl
    obtain ⟨i, hi, rfl⟩ := hl
    have hpos := Slice.validIn_pos (hv s rfl) (by have := List.mem_range.1 hi; omega)
    exact ⟨hpos.1, hpos.2.1⟩

theorem Slice.locs_rules_bounds {h : Heap} {lo : Bounds} {o : Option Slice}
    (hv : ∀ s ∈ o, s.ValidIn h.rules lo.rules) :
    ∀ l ∈ Slice.locs Loc.rules o, l.AtLeast lo ∧ l.Below h.size := by
  cases o with
  | none => intro l hl; simp [Slice.locs] at hl
  | some s =>
    intro l hl
    simp only [Slice.locs, List.mem_map] at hl
    obtain ⟨i, hi, rfl⟩ := hl
    have hpos := Slice.validIn_pos (hv s rfl) (by have := List.mem_range.1 hi; omega)
    exact ⟨hpos.1, hpos.2.1⟩

theorem IngressNodeFirewallRules.locs_bounds_rules {h : Heap} {lo : Bounds}
    {r : IngressNodeFirewallRules} (hwf : r.WF h lo) :
    ∀ l ∈ r.locs h, l.AtLeast lo ∧ l.Below h.size := by
  intro l hl
  simp only [IngressNodeFirewallRules.locs, List.mem_append] at hl
  rcases hl with (hl | hl) | hl
  · exact Slice.locs_cidr_bounds hwf.1 l hl
  · exact Slice.locs_prule_bounds (fun s hs => (hwf.2 s hs).1) l hl
  · cases hps : r.FirewallProtocolRules with
    | none => simp [hps] at hl
    | some s =>
      simp only [hps, List.mem_flatten, List.mem_map] at hl
      obtain ⟨_, ⟨p, hp, rfl⟩, hl⟩ := hl
      exact Slice.locs_port_bounds ((hwf.2 s hps).2 p hp) l hl

theorem IngressNodeFirewallSpec.locs_bounds_spec {h : Heap} {lo : Bounds}
    {s : IngressNodeFirewallSpec} (hwf : s.WF h lo) :
    ∀ l ∈ s.locs h, l.AtLeast lo ∧ l.Below h.size := by
  intro l hl
  simp only [IngressNodeFirewallSpec.locs, List.mem_append] at hl
  rcases hl with hl | hl
  · exact Slice.locs_rules_bounds (fun s hs => (hwf s hs).1) l hl
  · cases hing : s.Ingress with
    | none => simp [hing] at hl
    | some sl =>
      simp only [hing, List.mem_flatten, List.mem_map] at hl
      obtain ⟨_, ⟨r, hr, rfl⟩, hl⟩ := hl
      exact IngressNodeFirewallRules.locs_bounds_rules ((hwf sl hing).2 r hr) l hl

theorem matchAtoms_bol (as : List RegexAtom) (b : Bool) (l : List Char) :
    matchAtoms (RegexAtom.bol :: as) b l = (b && matchAtoms as b l) := rfl

theorem matchAtoms_lit_nil (c : Char) (as : List RegexAtom) (b : Bool) :
    matchAtoms (RegexAtom.lit c :: as) b [] = false := rfl

theorem matchAtoms_lit_cons (c d : Char) (as : List RegexAtom) (b : Bool) (ds : List Char) :
    matchAtoms (RegexAtom.lit c :: as) b (d :: ds) = (decide (c = d) && matchAtoms as false ds) :=
  rfl

/-- A run of literals matches exactly the texts it is a prefix of. -/
theorem matchAtoms_lits (cs : List Char) (b : Bool) (l : List Char) :
    matchAtoms (cs.map RegexAtom.lit) b l = true ↔ cs <+: l := by
  induction cs generalizing b l with
  | nil => simp [matchAtoms]
  | cons c cs ih =>
    cases l with
    | nil => simp [matchAtoms_lit_nil]
    | cons d ds =>
      rw [List.map_cons, matchAtoms_lit_cons, List.cons_prefix_cons, Bool.and_eq_true, ih,
        decide_eq_true_eq]

/-- A run of literals followed by `$` matches exactly that text. -/
theorem matchAtoms_lits_eol (cs : List Char) (b : Bool) (l : List Char) :
    matchAtoms (cs.map RegexAtom.lit ++ [RegexAtom.eol]) b l = true ↔ cs = l := by
  induction cs generalizing b l with
  | nil => cases l <;> simp [matchAtoms]
  | cons c cs ih =>
    cases l with
    | nil => simp [matchAtoms_lit_nil]
    | cons d ds =>
      rw [List.map_cons, List.cons_append, matchAtoms_lit_cons, Bool.and_eq_true, ih,
        decide_eq_true_eq, List.cons.injEq]

/-- Away from the start of the text, only the alternative that ends in `$` can match. -/
theorem searchRegex_inner (A D l : List Char) :
    searchRegex [RegexAtom.bol :: A.map RegexAtom.lit,
        D.map RegexAtom.lit ++ [RegexAtom.eol]] false l = true ↔ D <:+ l := by
  induction l with
  | nil =>
    rw [searchRegex, List.any_cons, List.any_cons, List.any_nil, matchAtoms_bol,
      Bool.false_and, Bool.false_or, Bool.or_false, matchAtoms_lits_eol]
    simp
  | cons c cs ih =>
    rw [searchRegex, List.any_cons, List.any_cons, List.any_nil, matchAtoms_bol,
      Bool.false_and, Bool.false_or, Bool.or_false, Bool.or_eq_true, matchAtoms_lits_eol, ih,
      List.suffix_cons_iff]

/-- A pattern `^A|D$` of two literal runs accepts the texts that start with `A` and the
texts that end with `D`. -/
theorem searchRegex_start (A D l : List Char) :
    searchRegex [RegexAtom.bol :: A.map RegexAtom.lit,
        D.map RegexAtom.lit ++ [RegexAtom.eol]] true l = true ↔ (A <+: l ∨ D <:+ l) := by
  cases l with
  | nil =>
    rw [searchRegex, List.any_cons, List.any_cons, List.any_nil, matchAtoms_bol,
      Bool.true_and, Bool.or_false, Bool.or_eq_true, matchAtoms_lits_eol, matchAtoms_lits]
    simp
  | cons c cs =>
    rw [searchRegex, List.any_cons, List.any_cons, List.any_nil, matchAtoms_bol,
      Bool.true_and, Bool.or_false, Bool.or_eq_true, Bool.or_eq_true, matchAtoms_lits_eol,
      matchAtoms_lits, searchRegex_inner, List.suffix_cons_iff, or_assoc]

theorem parseRegex_actionTypePattern :
    parseRegex IngressNodeFirewallActionTypePattern =
      some [RegexAtom.bol :: "Allow".toList.map RegexAtom.lit,
            "Deny".toList.map RegexAtom.lit ++ [RegexAtom.eol]] := by
  decide

/-- What the pattern on `IngressNodeFirewallActionType` accepts: every text that starts
with `Allow` and every text that ends with `Deny`. -/
theorem patternAccepts_actionType_iff (s : String) :
    patternAccepts IngressNodeFirewallActionTypePattern s = true ↔
      ("Allow".toList <+: s.toList ∨ "Deny".toList <:+ s.toList) := by
  unfold patternAccepts
  rw [parseRegex_actionTypePattern]
  exact searchRegex_start _ _ _


/-! ### Copies into a destination that is not the receiver -/

/-- For a destination that is not the receiver, `DeepCopyInto` fully overwrites it.  For
`IngressNodeFirewallRules`, `IngressNodeFirewallProtoRule` and `IngressNodeFirewallSpec`:
the result does not depend on the prior contents of the destination; after
`in.DeepCopyInto(out1)` followed by `in.DeepCopyInto(out2)` both destinations have the
value of `in`; and a nil slice field of `in` leaves the destination's field nil. -/
theorem DeepCopyInto_other_destination (h : Heap) :
    (∀ inp out1 out2 : IngressNodeFirewallRules, inp.WF h Bounds.zero →
      (IngressNodeFirewallRules.DeepCopyInto h (Operands.two inp out1)) =
        (IngressNodeFirewallRules.DeepCopyInto h (Operands.two inp out2)) ∧
      (IngressNodeFirewallRules.DeepCopyInto h (Operands.two inp out1)).2.readOut.value
          (IngressNodeFirewallRules.DeepCopyInto (IngressNodeFirewallRules.DeepCopyInto h
              (Operands.two inp out1)).1 (Operands.two inp out2)).1 =
        inp.value
          (IngressNodeFirewallRules.DeepCopyInto (IngressNodeFirewallRules.DeepCopyInto h
              (Operands.two inp out1)).1 (Operands.two inp out2)).1 ∧
      (IngressNodeFirewallRules.DeepCopyInto (IngressNodeFirewallRules.DeepCopyInto h
          (Operands.two inp out1)).1 (Operands.two inp out2)).2.readOut.value
          (IngressNodeFirewallRules.DeepCopyInto (IngressNodeFirewallRules.DeepCopyInto h
              (Operands.two inp out1)).1 (Operands.two inp out2)).1 =
        inp.value
          (IngressNodeFirewallRules.DeepCopyInto (IngressNodeFirewallRules.DeepCopyInto h
              (Operands.two inp out1)).1 (Operands.two inp out2)).1 ∧
      (inp.FromCIDRs = none → (IngressNodeFirewallRules.DeepCopyInto h
          (Operands.two inp out1)).2.readOut.FromCIDRs = none) ∧
      (inp.FirewallProtocolRules = none → (IngressNodeFirewallRules.DeepCopyInto h
          (Operands.two inp out1)).2.readOut.FirewallProtocolRules = none)) ∧
    (∀ inp out1 out2 : IngressNodeFirewallProtoRule, inp.WF h Bounds.zero →
      (IngressNodeFirewallProtoRule.DeepCopyInto h (Operands.two inp out1)) =
        (IngressNodeFirewallProtoRule.DeepCopyInto h (Operands.two inp out2)) ∧
      (IngressNodeFirewallProtoRule.DeepCopyInto h (Operands.two inp out1)).2.readOut.value
          (IngressNodeFirewallProtoRule.DeepCopyInto (IngressNodeFirewallProtoRule.DeepCopyInto h
              (Operands.two inp out1)).1 (Operands.two inp out2)).1 =
        inp.value
          (IngressNodeFirewallProtoRule.DeepCopyInto (IngressNodeFirewallProtoRule.DeepCopyInto h
              (Operands.two inp out1)).1 (Operands.two inp out2)).1 ∧
      (IngressNodeFirewallProtoRule.DeepCopyInto (IngressNodeFirewallProtoRule.DeepCopyInto h
          (Operands.two inp out1)).1 (Operands.two inp out2)).2.readOut.value
          (IngressNodeFirewallProtoRule.DeepCopyInto (IngressNodeFirewallProtoRule.DeepCopyInto h
              (Operands.two inp out1)).1 (Operands.two inp out2)).1 =
        inp.value
          (IngressNodeFirewallProtoRule.DeepCopyInto (IngressNodeFirewallProtoRule.DeepCopyInto h
              (Operands.two inp out1)).1 (Operands.two inp out2)).1 ∧
      (inp.Ports = none → (IngressNodeFirewallProtoRule.DeepCopyInto h
          (Operands.two inp out1)).2.readOut.Ports = none)) ∧
    (∀ inp out1 out2 : IngressNodeFirewallSpec, inp.WF h Bounds.zero →
      (IngressNodeFirewallSpec.DeepCopyInto h (Operands.two inp out1)) =
        (IngressNodeFirewallSpec.DeepCopyInto h (Operands.two inp out2)) ∧
      (IngressNodeFirewallSpec.DeepCopyInto h (Operands.two inp out1)).2.readOut.value
          (IngressNodeFirewallSpec.DeepCopyInto (IngressNodeFirewallSpec.DeepCopyInto h
              (Operands.two inp out1)).1 (Operands.two inp out2)).1 =
        inp.value
          (IngressNodeFirewallSpec.DeepCopyInto (IngressNodeFirewallSpec.DeepCopyInto h
              (Operands.two inp out1)).1 (Operands.two inp out2)).1 ∧
      (IngressNodeFirewallSpec.DeepCopyInto (IngressNodeFirewallSpec.DeepCopyInto h
          (Operands.two inp out1)).1 (Operands.two inp out2)).2.readOut.value
          (IngressNodeFirewallSpec.DeepCopyInto (IngressNodeFirewallSpec.DeepCopyInto h
              (Operands.two inp out1)).1 (Operands.two inp out2)).1 =
        inp.value
          (IngressNodeFirewallSpec.DeepCopyInto (IngressNodeFirewallSpec.DeepCopyInto h
              (Operands.two inp out1)).1 (Operands.two inp out2)).1 ∧
      (inp.Ingress = none → (IngressNodeFirewallSpec.DeepCopyInto h
          (Operands.two inp out1)).2.readOut.Ingress = none)) := by
  refine ⟨fun inp out1 out2 hwf => ?_, fun inp out1 out2 hwf => ?_,
    fun inp out1 out2 hwf => ?_⟩
  · have p := IngressNodeFirewallRules.DeepCopyInto_post_rules h inp out1 Bounds.zero hwf
    have f1 := IngressNodeFirewallRules.frame_rules (Mem.keeps_of_prefix _ p.1)
      (Mem.keeps_of_prefix _ p.2.1) (Mem.keeps_of_prefix _ p.2.2.1) hwf
    have q := IngressNodeFirewallRules.DeepCopyInto_post_rules
      (IngressNodeFirewallRules.DeepCopyInto h (Operands.two inp out1)).1 inp out2
      Bounds.zero f1.1
    have f2 := IngressNodeFirewallRules.frame_rules (Mem.keeps_of_prefix _ q.1)
      (Mem.keeps_of_prefix _ q.2.1) (Mem.keeps_of_prefix _ q.2.2.1) f1.1
    have f3 := IngressNodeFirewallRules.frame_rules (Mem.keeps_of_prefix _ q.1)
      (Mem.keeps_of_prefix _ q.2.1) (Mem.keeps_of_prefix _ q.2.2.1) p.2.2.2.2.1
    refine ⟨rfl, ?_, ?_, fun hn => ?_, fun hn => ?_⟩
    · rw [f3.2.1, p.2.2.2.2.2, f2.2.1, f1.2.1]
    · rw [q.2.2.2.2.2, f2.2.1]
    · obtain ⟨cs, ps⟩ := inp
      cases hn
      cases ps <;> rfl
    · obtain ⟨cs, ps⟩ := inp
      cases hn
      cases cs <;> rfl
  · have p := IngressNodeFirewallProtoRule.DeepCopyInto_post_protoRule h inp out1 Bounds.zero hwf
    have f1 := IngressNodeFirewallProtoRule.frame_protoRule (Mem.keeps_of_prefix _ p.1) hwf
    have q := IngressNodeFirewallProtoRule.DeepCopyInto_post_protoRule
      (IngressNodeFirewallProtoRule.DeepCopyInto h (Operands.two inp out1)).1 inp out2
      Bounds.zero f1.1
    have f2 := IngressNodeFirewallProtoRule.frame_protoRule (Mem.keeps_of_prefix _ q.1) f1.1
    have f3 := IngressNodeFirewallProtoRule.frame_protoRule (Mem.keeps_of_prefix _ q.1)
      p.2.2.2.2.1
    refine ⟨rfl, ?_, ?_, fun hn => ?_⟩
    · rw [f3.2, p.2.2.2.2.2, f2.2, f1.2]
    · rw [q.2.2.2.2.2, f2.2]
    · obtain ⟨ps⟩ := inp
      cases hn
      rfl
  · have p := IngressNodeFirewallSpec.DeepCopyInto_post_spec h inp out1 Bounds.zero hwf
    have f1 := IngressNodeFirewallSpec.frame_spec (Heap.ext_keeps _ p.1) hwf
    have q := IngressNodeFirewallSpec.DeepCopyInto_post_spec
      (IngressNodeFirewallSpec.DeepCopyInto h (Operands.two inp out1)).1 inp out2
      Bounds.zero f1.1
    have f2 := IngressNodeFirewallSpec.frame_spec (Heap.ext_keeps _ q.1) f1.1
    have f3 := IngressNodeFirewallSpec.frame_spec (Heap.ext_keeps _ q.1) p.2.1
    refine ⟨rfl, ?_, ?_, fun hn => ?_⟩
    · rw [f3.2.1, p.2.2, f2.2.1, f1.2.1]
    · rw [q.2.2, f2.2.1]
    · obtain ⟨ps⟩ := inp
      cases hn
      rfl

/-! ## The claims -/

/-- C1: for every well-formed `IngressNodeFirewallSpec` `s`, `s.DeepCopy()` is structurally
equal to `s`: the copy's value (the `Ingress` list with, per rule set, the `FromCIDRs`
strings in order and the `FirewallProtocolRules` with their `Protocol`, `Action`,
`ICMPRule` and `Ports`) is the value of `s`, which is itself unchanged by the call. -/
theorem IngressNodeFirewallSpec.DeepCopy_value_eq (h : Heap) (s : IngressNodeFirewallSpec)
    (hwf : s.WF h Bounds.zero) :
    ∃ c, (IngressNodeFirewallSpec.DeepCopy h (some s)).2 = some c ∧
      c.value (IngressNodeFirewallSpec.DeepCopy h (some s)).1 =
        s.value (IngressNodeFirewallSpec.DeepCopy h (some s)).1 ∧
      s.value (IngressNodeFirewallSpec.DeepCopy h (some s)).1 = s.value h := by
  have post := IngressNodeFirewallSpec.DeepCopyInto_post_spec h s IngressNodeFirewallSpec.zero
    Bounds.zero hwf
  have hs := IngressNodeFirewallSpec.frame_spec (Heap.ext_keeps Bounds.zero post.1) hwf
  exact ⟨_, rfl, post.2.2.trans hs.2.1.symm, hs.2.1⟩

/-- The copy of `exampleSpec` has the value of `exampleSpec`. -/
theorem IngressNodeFirewallSpec.DeepCopy_value_eq_witness :
    exampleSpec.WF exampleHeap Bounds.zero ∧
    ∃ c, (IngressNodeFirewallSpec.DeepCopy exampleHeap (some exampleSpec)).2 = some c ∧
      c.value (IngressNodeFirewallSpec.DeepCopy exampleHeap (some exampleSpec)).1 =
        exampleSpec.value (IngressNodeFirewallSpec.DeepCopy exampleHeap (some exampleSpec)).1 ∧
      exampleSpec.value (IngressNodeFirewallSpec.DeepCopy exampleHeap (some exampleSpec)).1 =
        exampleSpec.value exampleHeap :=
  ⟨by decide, IngressNodeFirewallSpec.DeepCopy_value_eq exampleHeap exampleSpec (by decide)⟩

/-- C2: for each of `IngressNodeFirewallSpec`, `IngressNodeFirewallRules`,
`IngressNodeFirewallProtocolRule`, `IngressNodeFirewallProtoRule`,
`IngressNodeFirewallICMPRule` and `IngressNodeFirewallFromCIDR`, `DeepCopy` returns nil
exactly when the receiver is nil, and on a non-nil (well-formed) receiver it returns a
non-nil pointer to a copy: a struct with the receiver's value whose slices all lie in
backing arrays allocated by the call, while every array that existed before is left as
it was.  The functions are total, so the call never fails. -/
theorem DeepCopy_nil_iff_nil (h : Heap) :
    (∀ x : Option IngressNodeFirewallSpec,
      ((IngressNodeFirewallSpec.DeepCopy h x).2 = none ↔ x = none) ∧
      ∀ s ∈ x, s.WF h Bounds.zero →
        ∃ c ∈ (IngressNodeFirewallSpec.DeepCopy h x).2,
          c.value (IngressNodeFirewallSpec.DeepCopy h x).1 = s.value h ∧
          c.WF (IngressNodeFirewallSpec.DeepCopy h x).1 h.size ∧
          h.Ext (IngressNodeFirewallSpec.DeepCopy h x).1) ∧
    (∀ x : Option IngressNodeFirewallRules,
      ((IngressNodeFirewallRules.DeepCopy h x).2 = none ↔ x = none) ∧
      ∀ s ∈ x, s.WF h Bounds.zero →
        ∃ c ∈ (IngressNodeFirewallRules.DeepCopy h x).2,
          c.value (IngressNodeFirewallRules.DeepCopy h x).1 = s.value h ∧
          c.WF (IngressNodeFirewallRules.DeepCopy h x).1 h.size ∧
          h.Ext (IngressNodeFirewallRules.DeepCopy h x).1) ∧
    (∀ x : Option IngressNodeFirewallProtocolRule,
      ((IngressNodeFirewallProtocolRule.DeepCopy h x).2 = none ↔ x = none) ∧
      ∀ s ∈ x, s.WF h Bounds.zero →
        ∃ c ∈ (IngressNodeFirewallProtocolRule.DeepCopy h x).2,
          c.value (IngressNodeFirewallProtocolRule.DeepCopy h x).1 = s.value h ∧
          c.WF (IngressNodeFirewallProtocolRule.DeepCopy h x).1 h.size ∧
          h.Ext (IngressNodeFirewallProtocolRule.DeepCopy h x).1) ∧
    (∀ x : Option IngressNodeFirewallProtoRule,
      ((IngressNodeFirewallProtoRule.DeepCopy h x).2 = none ↔ x = none) ∧
      ∀ s ∈ x, s.WF h Bounds.zero →
        ∃ c ∈ (IngressNodeFirewallProtoRule.DeepCopy h x).2,
          c.value (IngressNodeFirewallProtoRule.DeepCopy h x).1 = s.value h ∧
          c.WF (IngressNodeFirewallProtoRule.DeepCopy h x).1 h.size ∧
          h.Ext (IngressNodeFirewallProtoRule.DeepCopy h x).1) ∧
    (∀ x : Option IngressNodeFirewallICMPRule,
      (IngressNodeFirewallICMPRule.DeepCopy x = none ↔ x = none) ∧
      ∀ s ∈ x, IngressNodeFirewallICMPRule.DeepCopy x = some s) ∧
    (∀ x : Option IngressNodeFirewallFromCIDR,
      (IngressNodeFirewallFromCIDR.DeepCopy x = none ↔ x = none) ∧
      ∀ s ∈ x, IngressNodeFirewallFromCIDR.DeepCopy x = some s) := by
  refine ⟨fun x => ?_, fun x => ?_, fun x => ?_, fun x => ?_, fun x => ?_, fun x => ?_⟩
  · cases x with
    | none => exact ⟨⟨fun _ => rfl, fun _ => rfl⟩, fun s hs => by simp at hs⟩
    | some s =>
      refine ⟨⟨fun hc => by simp [IngressNodeFirewallSpec.DeepCopy] at hc,
        fun hc => by simp at hc⟩, fun s' hs' hwf => ?_⟩
      cases hs'
      have p := IngressNodeFirewallSpec.DeepCopyInto_post_spec h s
        IngressNodeFirewallSpec.zero _ hwf
      exact ⟨_, rfl, p.2.2, p.2.1, p.1⟩
  · cases x with
    | none => exact ⟨⟨fun _ => rfl, fun _ => rfl⟩, fun s hs => by simp at hs⟩
    | some s =>
      refine ⟨⟨fun hc => by simp [IngressNodeFirewallRules.DeepCopy] at hc,
        fun hc => by simp at hc⟩, fun s' hs' hwf => ?_⟩
      cases hs'
      have p := IngressNodeFirewallRules.DeepCopyInto_post_rules h s
        IngressNodeFirewallRules.zero _ hwf
      exact ⟨_, rfl, p.2.2.2.2.2, p.2.2.2.2.1, p.1, p.2.1, p.2.2.1, prefix_of_eq p.2.2.2.1⟩
  · cases x with
    | none => exact ⟨⟨fun _ => rfl, fun _ => rfl⟩, fun s hs => by simp at hs⟩
    | some s =>
      refine ⟨⟨fun hc => by simp [IngressNodeFirewallProtocolRule.DeepCopy] at hc,
        fun hc => by simp at hc⟩, fun s' hs' hwf => ?_⟩
      cases hs'
      have p := IngressNodeFirewallProtocolRule.DeepCopyInto_post_protocolRule h s
        IngressNodeFirewallProtocolRule.zero _ hwf
      exact ⟨_, rfl, p.2.2.2.2.2, p.2.2.2.2.1, p.1, prefix_of_eq p.2.1,
        prefix_of_eq p.2.2.1, prefix_of_eq p.2.2.2.1⟩
  · cases x with
    | none => exact ⟨⟨fun _ => rfl, fun _ => rfl⟩, fun s hs => by simp at hs⟩
    | some s =>
      refine ⟨⟨fun hc => by simp [IngressNodeFirewallProtoRule.DeepCopy] at hc,
        fun hc => by simp at hc⟩, fun s' hs' hwf => ?_⟩
      cases hs'
      have p := IngressNodeFirewallProtoRule.DeepCopyInto_post_protoRule h s
        IngressNodeFirewallProtoRule.zero _ hwf
      exact ⟨_, rfl, p.2.2.2.2.2, p.2.2.2.2.1, p.1, prefix_of_eq p.2.1,
        prefix_of_eq p.2.2.1, prefix_of_eq p.2.2.2.1⟩
  · cases x with
    | none => exact ⟨⟨fun _ => rfl, fun _ => rfl⟩, fun s hs => by simp at hs⟩
    | some s =>
      refine ⟨⟨fun hc => by simp [IngressNodeFirewallICMPRule.DeepCopy] at hc,
        fun hc => by simp at hc⟩, fun s' hs' => ?_⟩
      cases hs'
      rfl
  · cases x with
    | none => exact ⟨⟨fun _ => rfl, fun _ => rfl⟩, fun s hs => by simp at hs⟩
    | some s =>
      refine ⟨⟨fun hc => by simp [IngressNodeFirewallFromCIDR.DeepCopy] at hc,
        fun hc => by simp at hc⟩, fun s' hs' => ?_⟩
      cases hs'
      rfl

/-- `DeepCopy` of `exampleSpec` is non-nil, has the value of `exampleSpec` and lies in
arrays the call allocated; `exampleSpec` itself does not lie in such arrays. -/
theorem DeepCopy_nil_iff_nil_witness :
    exampleSpec.WF exampleHeap Bounds.zero ∧
    ¬ exampleSpec.WF (IngressNodeFirewallSpec.DeepCopy exampleHeap (some exampleSpec)).1
        exampleHeap.size ∧
    (((IngressNodeFirewallSpec.DeepCopy exampleHeap (some exampleSpec)).2 = none ↔
        some exampleSpec = none) ∧
      ∃ c ∈ (IngressNodeFirewallSpec.DeepCopy exampleHeap (some exampleSpec)).2,
        c.value (IngressNodeFirewallSpec.DeepCopy exampleHeap (some exampleSpec)).1 =
          exampleSpec.value exampleHeap ∧
        c.WF (IngressNodeFirewallSpec.DeepCopy exampleHeap (some exampleSpec)).1
          exampleHeap.size ∧
        exampleHeap.Ext (IngressNodeFirewallSpec.DeepCopy exampleHeap (some exampleSpec)).1) :=
  ⟨by decide, by decide,
    ((DeepCopy_nil_iff_nil exampleHeap).1 (some exampleSpec)).1,
    ((DeepCopy_nil_iff_nil exampleHeap).1 (some exampleSpec)).2 exampleSpec rfl (by decide)⟩

/-- C3 (counterexample): a value of the Go type with `ICMPType = 44` and `ICMPCode = -1`
exists, is outside the declared ranges, and `DeepCopy` returns it as it is. -/
theorem IngressNodeFirewallICMPRule.out_of_range_value :
    ¬ (IngressNodeFirewallICMPRule.mk ⟨44, by decide⟩ ⟨-1, by decide⟩).Validated ∧
    IngressNodeFirewallICMPRule.DeepCopy
        (some (IngressNodeFirewallICMPRule.mk ⟨44, by decide⟩ ⟨-1, by decide⟩)) =
      some (IngressNodeFirewallICMPRule.mk ⟨44, by decide⟩ ⟨-1, by decide⟩) := by
  decide

/-- C3 (amended): the fields of an `IngressNodeFirewallICMPRule` are `int8` values
(-128..127); `DeepCopy` of a rule returns a rule with the same `ICMPType` and `ICMPCode`,
so a rule inside the declared ranges 0..43 and 0..16 is copied to a rule inside them. -/
theorem IngressNodeFirewallICMPRule.DeepCopy_keeps_bounds (r : IngressNodeFirewallICMPRule)
    (hv : r.Validated) :
    (-128 ≤ r.ICMPType.val ∧ r.ICMPType.val ≤ 127) ∧
    (-128 ≤ r.ICMPCode.val ∧ r.ICMPCode.val ≤ 127) ∧
    ∃ c, IngressNodeFirewallICMPRule.DeepCopy (some r) = some c ∧
      c.ICMPType = r.ICMPType ∧ c.ICMPCode = r.ICMPCode ∧
      (0 ≤ c.ICMPType.val ∧ c.ICMPType.val ≤ 43) ∧
      (0 ≤ c.ICMPCode.val ∧ c.ICMPCode.val ≤ 16) :=
  ⟨r.ICMPType.property, r.ICMPCode.property, r, rfl, rfl, rfl, hv.1, hv.2⟩

/-- The echo-request rule (type 8, code 0) is inside the ranges and so is its copy. -/
theorem IngressNodeFirewallICMPRule.DeepCopy_keeps_bounds_witness :
    (IngressNodeFirewallICMPRule.mk ⟨8, by decide⟩ ⟨0, by decide⟩).Validated ∧
    ∃ c, IngressNodeFirewallICMPRule.DeepCopy
        (some (IngressNodeFirewallICMPRule.mk ⟨8, by decide⟩ ⟨0, by decide⟩)) = some c ∧
      (0 ≤ c.ICMPType.val ∧ c.ICMPType.val ≤ 43) ∧
      (0 ≤ c.ICMPCode.val ∧ c.ICMPCode.val ≤ 16) :=
  ⟨by decide,
    match IngressNodeFirewallICMPRule.DeepCopy_keeps_bounds
      (IngressNodeFirewallICMPRule.mk ⟨8, by decide⟩ ⟨0, by decide⟩) (by decide) with
    | ⟨_, _, c, hc, _, _, h1, h2⟩ => ⟨c, hc, h1, h2⟩⟩

/-- C4: the result of `DeepCopy` shares no storage with its receiver.  For a well-formed
spec `s` and `c := s.DeepCopy()`, an assignment to any element reachable from `c` (an
element of `c.Ingress`, of a `FromCIDRs`, of a `FirewallProtocolRules` or of a `Ports`
of `c`) leaves the value of `s` unchanged, and an assignment to any element reachable
from `s` leaves the value of `c` unchanged. -/
theorem IngressNodeFirewallSpec.DeepCopy_no_shared_storage (h : Heap)
    (s : IngressNodeFirewallSpec) (hwf : s.WF h Bounds.zero) (w : Write) :
    ∃ c, (IngressNodeFirewallSpec.DeepCopy h (some s)).2 = some c ∧
      (w.loc ∈ c.locs (IngressNodeFirewallSpec.DeepCopy h (some s)).1 →
        s.value ((IngressNodeFirewallSpec.DeepCopy h (some s)).1.write w) =
          s.value (IngressNodeFirewallSpec.DeepCopy h (some s)).1) ∧
      (w.loc ∈ s.locs (IngressNodeFirewallSpec.DeepCopy h (some s)).1 →
        c.value ((IngressNodeFirewallSpec.DeepCopy h (some s)).1.write w) =
          c.value (IngressNodeFirewallSpec.DeepCopy h (some s)).1) := by
  have post := IngressNodeFirewallSpec.DeepCopyInto_post_spec h s IngressNodeFirewallSpec.zero
    Bounds.zero hwf
  have hs := IngressNodeFirewallSpec.frame_spec (Heap.ext_keeps Bounds.zero post.1) hwf
  refine ⟨_, rfl, fun hw => ?_, fun hw => ?_⟩
  · have hb := (IngressNodeFirewallSpec.locs_bounds_spec post.2.1 _ hw).1
    have hk := Heap.keeps_write_above Bounds.zero w post.1 hb
    exact (IngressNodeFirewallSpec.frame_spec hk hwf).2.1.trans hs.2.1.symm
  · have hw' : w.loc ∈ s.locs h := by
      have := hs.2.2
      simp only [IngressNodeFirewallSpec.DeepCopy] at hw
      rw [this] at hw
      exact hw
    have hb := (IngressNodeFirewallSpec.locs_bounds_spec hwf _ hw').2
    have hk := Heap.keeps_write_below
      (IngressNodeFirewallSpec.DeepCopy h (some s)).1 w hb
    exact (IngressNodeFirewallSpec.frame_spec hk post.2.1).2.1

/-- On `exampleSpec`: a write to the first port of the copy does not change the source,
and a write to a port of the source does not change the copy. -/
theorem IngressNodeFirewallSpec.DeepCopy_no_shared_storage_witness :
    exampleSpec.WF exampleHeap Bounds.zero ∧
    ∃ c, (IngressNodeFirewallSpec.DeepCopy exampleHeap (some exampleSpec)).2 = some c ∧
      (Loc.port 1 0 ∈
          c.locs (IngressNodeFirewallSpec.DeepCopy exampleHeap (some exampleSpec)).1 ∧
        exampleSpec.value ((IngressNodeFirewallSpec.DeepCopy exampleHeap
          (some exampleSpec)).1.write (Write.port 1 0 GoInt32.zero)) =
          exampleSpec.value (IngressNodeFirewallSpec.DeepCopy exampleHeap (some exampleSpec)).1) ∧
      (Loc.port 0 1 ∈
          exampleSpec.locs (IngressNodeFirewallSpec.DeepCopy exampleHeap (some exampleSpec)).1 ∧
        c.value ((IngressNodeFirewallSpec.DeepCopy exampleHeap
          (some exampleSpec)).1.write (Write.port 0 1 GoInt32.zero)) =
          c.value (IngressNodeFirewallSpec.DeepCopy exampleHeap (some exampleSpec)).1) := by
  refine ⟨by decide, ?_⟩
  obtain ⟨c, hc, h1, _⟩ := IngressNodeFirewallSpec.DeepCopy_no_shared_storage exampleHeap
    exampleSpec (by decide) (Write.port 1 0 GoInt32.zero)
  obtain ⟨c', hc', _, h2⟩ := IngressNodeFirewallSpec.DeepCopy_no_shared_storage exampleHeap
    exampleSpec (by decide) (Write.port 0 1 GoInt32.zero)
  cases hc.symm.trans hc'
  have hcv : (IngressNodeFirewallSpec.DeepCopy exampleHeap (some exampleSpec)).2 =
      some ⟨some ⟨1, 0, 3⟩⟩ := by decide
  cases hcv.symm.trans hc
  exact ⟨_, hc, ⟨by decide, h1 (by decide)⟩, ⟨by decide, h2 (by decide)⟩⟩

/-- C5: for every packet, `Evaluate` on an empty list of rule sets is `NoMatch`, and so is
`Evaluate` on an `IngressNodeFirewallSpec` whose `Ingress` is nil or has length 0. -/
theorem Evaluate_empty {IP : Type} (contains : String → IP → Bool) (p : Packet IP) (h : Heap)
    (s : IngressNodeFirewallSpec) (hs : ∀ sl ∈ s.Ingress, sl.len = 0) :
    Evaluate contains p [] = Verdict.NoMatch ∧
    EvaluateSpec contains p h s = Verdict.NoMatch := by
  refine ⟨rfl, ?_⟩
  obtain ⟨ing⟩ := s
  cases ing with
  | none => rfl
  | some sl =>
    have h0 : sl.len = 0 := hs sl rfl
    simp [EvaluateSpec, IngressNodeFirewallSpec.value, sliceElems, Mem.read, h0, Evaluate]

/-- A spec whose `Ingress` is a non-nil slice of length 0 gives `NoMatch`. -/
theorem Evaluate_empty_witness :
    (∀ sl ∈ (IngressNodeFirewallSpec.mk (some ⟨0, 1, 0⟩)).Ingress, sl.len = 0) ∧
    Evaluate ipv4Contains scenarioPacket [] = Verdict.NoMatch ∧
    EvaluateSpec ipv4Contains scenarioPacket exampleHeap
      (IngressNodeFirewallSpec.mk (some ⟨0, 1, 0⟩)) = Verdict.NoMatch :=
  ⟨by decide, Evaluate_empty ipv4Contains scenarioPacket exampleHeap
    (IngressNodeFirewallSpec.mk (some ⟨0, 1, 0⟩)) (by decide)⟩

/-- C6: `Evaluate` is first-match-wins: when the first rule set alone gives `Deny` for a
packet and the second alone gives `Allow`, the list of the two gives `Deny`. -/
theorem Evaluate_first_match_wins {IP : Type} (contains : String → IP → Bool) (p : Packet IP)
    (first second : RulesValue)
    (h1 : Evaluate contains p [first] = Verdict.Deny)
    (h2 : Evaluate contains p [second] = Verdict.Allow) :
    Evaluate contains p [first, second] = Verdict.Deny := by
  simp only [Evaluate] at h1 h2 ⊢
  cases hc : cidrMatches contains p first with
  | false => simp [hc] at h1
  | true =>
    simp only [hc, if_true] at h1 ⊢
    cases hf : firstMatch p (sliceElems first.FirewallProtocolRules) with
    | none => simp [hf] at h1
    | some v =>
      simp only [hf] at h1 ⊢
      exact h1

/-- Scenario A of the specification followed by an allow-all rule set: the verdict for
the packet from `10.1.2.3` to TCP port 22 is `Deny`. -/
theorem Evaluate_first_match_wins_witness :
    Evaluate ipv4Contains scenarioPacket [scenarioDeny] = Verdict.Deny ∧
    Evaluate ipv4Contains scenarioPacket [scenarioAllow] = Verdict.Allow ∧
    Evaluate ipv4Contains scenarioPacket [scenarioDeny, scenarioAllow] = Verdict.Deny :=
  ⟨by decide, by decide,
    Evaluate_first_match_wins ipv4Contains scenarioPacket scenarioDeny scenarioAllow
      (by decide) (by decide)⟩

/-- C7: the pattern on `IngressNodeFirewallActionType` accepts the two action constants,
and it also accepts `Allowed` and `NoDeny`, which are neither `Allow` nor `Deny`. -/
theorem IngressNodeFirewallActionTypePattern_accepts_more :
    patternAccepts IngressNodeFirewallActionTypePattern IngressNodeFirewallAllow = true ∧
    patternAccepts IngressNodeFirewallActionTypePattern DIngressNodeFirewallDeny = true ∧
    patternAccepts IngressNodeFirewallActionTypePattern "Allowed" = true ∧
    patternAccepts IngressNodeFirewallActionTypePattern "NoDeny" = true ∧
    "Allowed" ≠ IngressNodeFirewallAllow ∧ "Allowed" ≠ DIngressNodeFirewallDeny ∧
    "NoDeny" ≠ IngressNodeFirewallAllow ∧ "NoDeny" ≠ DIngressNodeFirewallDeny := by
  decide

/-- C8: `in.DeepCopyInto(out1)` followed by `in.DeepCopyInto(in)`.  The first destination
holds the receiver's original value; the second destination is the receiver, whose slice
was replaced by the new zeroed one before it was read: ports `[22, 80]` become `[0, 0]`,
the CIDRs become empty strings, the protocol rules and the rule sets become zero values.
The two destinations differ, for `IngressNodeFirewallProtoRule`,
`IngressNodeFirewallRules` and `IngressNodeFirewallSpec` alike. -/
theorem DeepCopyInto_onto_receiver :
    (protoRuleOntoReceiver.2.1.value protoRuleOntoReceiver.1 =
        ⟨some [⟨22, by decide⟩, ⟨80, by decide⟩]⟩ ∧
      protoRuleOntoReceiver.2.2.value protoRuleOntoReceiver.1 =
        ⟨some [GoInt32.zero, GoInt32.zero]⟩) ∧
    (rulesOntoReceiver.2.1.value rulesOntoReceiver.1 = exampleRules.value exampleHeap ∧
      rulesOntoReceiver.2.2.value rulesOntoReceiver.1 =
        ⟨some [⟨""⟩, ⟨""⟩],
         some [⟨⟨none⟩, IngressNodeFirewallICMPRule.zero, "", ""⟩,
               ⟨⟨none⟩, IngressNodeFirewallICMPRule.zero, "", ""⟩,
               ⟨⟨none⟩, IngressNodeFirewallICMPRule.zero, "", ""⟩]⟩) ∧
    (specOntoReceiver.2.1.value specOntoReceiver.1 = exampleSpec.value exampleHeap ∧
      specOntoReceiver.2.2.value specOntoReceiver.1 =
        ⟨some [⟨none, none⟩, ⟨none, none⟩, ⟨none, none⟩]⟩) := by
  decide

/-- C9: `DeepCopy` keeps the difference between a nil slice and an empty one.  For
`Ports`, `FromCIDRs`, `FirewallProtocolRules` and `Ingress`, the field of the copy is nil
exactly when the field of the receiver is nil, and a non-nil field is copied to a non-nil
field of the same length (so length 0 to length 0). -/
theorem DeepCopy_keeps_nil_and_empty (h : Heap) :
    (∀ p : IngressNodeFirewallProtoRule,
      ∃ c, (IngressNodeFirewallProtoRule.DeepCopy h (some p)).2 = some c ∧
        (c.Ports = none ↔ p.Ports = none) ∧
        (∀ s ∈ p.Ports, ∃ d ∈ c.Ports, d.len = s.len)) ∧
    (∀ r : IngressNodeFirewallRules,
      ∃ c, (IngressNodeFirewallRules.DeepCopy h (some r)).2 = some c ∧
        (c.FromCIDRs = none ↔ r.FromCIDRs = none) ∧
        (∀ s ∈ r.FromCIDRs, ∃ d ∈ c.FromCIDRs, d.len = s.len) ∧
        (c.FirewallProtocolRules = none ↔ r.FirewallProtocolRules = none) ∧
        (∀ s ∈ r.FirewallProtocolRules, ∃ d ∈ c.FirewallProtocolRules, d.len = s.len)) ∧
    (∀ s : IngressNodeFirewallSpec,
      ∃ c, (IngressNodeFirewallSpec.DeepCopy h (some s)).2 = some c ∧
        (c.Ingress = none ↔ s.Ingress = none) ∧
        (∀ sl ∈ s.Ingress, ∃ d ∈ c.Ingress, d.len = sl.len)) := by
  refine ⟨fun p => ⟨_, rfl, ?_⟩, fun r => ⟨_, rfl, ?_⟩, fun s => ⟨_, rfl, ?_⟩⟩
  · obtain ⟨ps⟩ := p
    cases ps <;>
      simp [IngressNodeFirewallProtoRule.DeepCopy, IngressNodeFirewallProtoRule.DeepCopyInto,
        Mem.make, Operands.writeOut,
        Operands.readIn, Operands.readOut]
  · obtain ⟨cs, ps⟩ := r
    cases cs <;> cases ps <;>
      simp [IngressNodeFirewallRules.DeepCopy, IngressNodeFirewallRules.DeepCopyInto, Mem.make,
          Operands.writeOut,
        Operands.readIn, Operands.readOut]
  · obtain ⟨ing⟩ := s
    cases ing <;>
      simp [IngressNodeFirewallSpec.DeepCopy, IngressNodeFirewallSpec.DeepCopyInto, Mem.make,
          Operands.writeOut,
        Operands.readIn, Operands.readOut]

end V1alpha1
